import Mathlib

/-
  Verification of the acebase-core client data-access layer.

  Shallow embedding of:
  - src/src/transport.js            (serialize / deserialize transport codec)
  - src/unnamed/part_001            (DataReference, DataReferenceQuery: set, update,
                                     remove, on, off, once, query().where, constructor
                                     path handling)
  - src/unnamed/part_000            (AceBase facade; only its ref construction matters here)

  JavaScript values are embedded as the inductive type JSValue.  Machine floats do not
  occur in any claim; JS numbers are embedded as integers.  Fallible JS code (property
  access on undefined, thrown TypeErrors) is embedded with Option.  Modules of this
  repository that are not under src/ (utils.cloneObject, utils.getPathInfo, ascii85,
  path-reference, type-mappings, subscription.EventStream) are modelled from the spec;
  each such definition carries a doc comment starting with "Modelled from the spec:".
  JS builtins (Date.toISOString / Date parsing, parseInt) are modelled at the
  abstraction level the claims use: injective textual encodings with exact inverses.

  The file has two parts: all definitions first, then all lemmas and the claim
  theorems C1..C10.
-/

/-! ### Generic association-list and positional-list primitives

These model JS property access: reading `obj[key]`, writing `obj[key] = x`
(replace the existing property, else append in insertion order), reading `arr[i]`
and writing `arr[i] = x`. -/

def alookup {β : Type} : List (String × β) → String → Option β
  | [], _ => none
  | (k, v) :: rest, key => if k = key then some v else alookup rest key

def aset {β : Type} : List (String × β) → String → β → List (String × β)
  | [], key, x => [(key, x)]
  | (k, v) :: rest, key, x => if k = key then (k, x) :: rest else (k, v) :: aset rest key x

def lget {α : Type} : List α → Nat → Option α
  | [], _ => none
  | x :: _, 0 => some x
  | _ :: rest, n + 1 => lget rest n

def lset {α : Type} : List α → Nat → α → List α
  | [], _, _ => []
  | _ :: rest, 0, x => x :: rest
  | y :: rest, n + 1, x => y :: lset rest n x

/-! ### Decimal and hexadecimal text encodings

Kernel-computable digit printers and parsers, used to model JS number-to-string
coercion (array indices become the strings "0", "1", ...), the Date timestamp
encoding, and the binary text encoding. -/

def charDigit? (c : Char) : Option Nat :=
  if 48 ≤ c.toNat ∧ c.toNat ≤ 57 then some (c.toNat - 48) else none

def strToNatAux : List Char → Nat → Option Nat
  | [], acc => some acc
  | c :: cs, acc =>
    match charDigit? c with
    | some d => strToNatAux cs (acc * 10 + d)
    | none => none

def strToNat? (s : String) : Option Nat :=
  match s.data with
  | [] => none
  | c :: cs => strToNatAux (c :: cs) 0

def natToStrAux : Nat → Nat → List Char
  | 0, _ => []
  | _ + 1, 0 => []
  | fuel + 1, n + 1 => natToStrAux fuel ((n + 1) / 10) ++ [Nat.digitChar ((n + 1) % 10)]

/-- Canonical decimal printing of a natural number, as JS String(n) produces for
array indices. -/
def natToStr (n : Nat) : String :=
  if n = 0 then "0" else String.mk (natToStrAux n n)

/-- Parses a string that is the canonical decimal form of a natural number, as JS
array index lookup by string key requires; non-canonical strings give none. -/
def decimalNat? (s : String) : Option Nat :=
  match strToNat? s with
  | some n => if natToStr n = s then some n else none
  | none => none

def intToStr (i : Int) : String :=
  if i < 0 then "-" ++ natToStr i.natAbs else natToStr i.toNat

def strToInt? (s : String) : Option Int :=
  match s.data with
  | [] => none
  | c :: rest =>
    if c = '-' then
      match rest with
      | [] => none
      | c' :: rest' => (strToNatAux (c' :: rest') 0).map (fun n => -(n : Int))
    else (strToNatAux (c :: rest) 0).map (fun n => (n : Int))

/-- Models the JS builtin Date.prototype.toISOString at the abstraction level of the
claims: an injective textual encoding of the millisecond timestamp.  The real builtin
prints a calendar form that new Date(...) parses back millisecond-exactly; only that
round-trip contract is relevant to any claim, so the encoding is the signed decimal
millisecond count. -/
def dateToISO (ms : Int) : String := intToStr ms

/-- Models the JS builtin new Date(string) on serializer-produced strings: the exact
inverse of dateToISO.  On strings that are not a produced encoding the builtin yields
an Invalid Date; that is modelled as timestamp 0 (never reached from serializer
output). -/
def parseISO (s : String) : Int := (strToInt? s).getD 0

def hexDigit? (c : Char) : Option Nat :=
  if 48 ≤ c.toNat ∧ c.toNat ≤ 57 then some (c.toNat - 48)
  else if 97 ≤ c.toNat ∧ c.toNat ≤ 102 then some (c.toNat - 87)
  else none

def ascii85encodeChars : List Nat → List Char
  | [] => []
  | b :: rest => Nat.digitChar (b / 16) :: Nat.digitChar (b % 16) :: ascii85encodeChars rest

/-- Modelled from the spec: the ascii85 module is not under src/.  Spec §4.2 requires
only that a binary leaf is replaced by "an ASCII-safe text encoding" that is
byte-exact under round trip; modelled as fixed-width hexadecimal byte encoding. -/
def ascii85encode (bytes : List Nat) : String := String.mk (ascii85encodeChars bytes)

def ascii85decodeChars : List Char → List Nat
  | c₁ :: c₂ :: rest => ((hexDigit? c₁).getD 0 * 16 + (hexDigit? c₂).getD 0) :: ascii85decodeChars rest
  | _ => []

/-- Modelled from the spec: inverse of ascii85encode (the ascii85 module is not under
src/); total, with garbage tolerance on malformed input. -/
def ascii85decode (s : String) : List Nat := ascii85decodeChars s.data

/-! ### JS values -/

/-- A JavaScript value of the kinds the repository supports: null, booleans, numbers,
strings, Date objects (by millisecond timestamp), ArrayBuffer binaries (by byte list),
PathReference path-links (the path-reference module is not under src/; the spec
describes it as a wrapper marking that a string payload is a cross-node path), plain
objects (ordered own enumerable properties) and arrays. -/
inductive JSValue where
  | vnull
  | vbool (b : Bool)
  | vnum (n : Int)
  | vstr (s : String)
  | vdate (ms : Int)
  | vbin (bytes : List Nat)
  | vpathref (path : String)
  | vobj (fields : List (String × JSValue))
  | varr (items : List JSValue)

/-- The JS test "obj === null || typeof obj !== 'object' || obj instanceof Date ||
obj instanceof ArrayBuffer || obj instanceof PathReference" from transport.js line 53:
true exactly when the value is not a plain object or array. -/
def isSingleValue : JSValue → Bool
  | .vobj _ => false
  | .varr _ => false
  | _ => true

def isComposite (v : JSValue) : Bool := !isSingleValue v

/-- The JS test "typeof v === 'object'": true for null and every object, including
Date, ArrayBuffer and PathReference instances. -/
def typeofIsObject : JSValue → Bool
  | .vnull => true
  | .vobj _ => true
  | .varr _ => true
  | .vdate _ => true
  | .vbin _ => true
  | .vpathref _ => true
  | _ => false

/-! ### Transport codec (src/src/transport.js) -/

inductive Tag where
  | date
  | binary
  | reference
deriving DecidableEq, Repr

/-- The map field of a transport envelope: JS undefined/null, a single type tag
string, or a mappings object from relative path strings to tags. -/
inductive MapField where
  | nullmap
  | tag (t : Tag)
  | entries (l : List (String × Tag))

structure Envelope where
  map : MapField
  val : JSValue

/-- The leaf transformation of transport.js serialize lines 66-79: a Date becomes its
ISO string tagged date, an ArrayBuffer its ascii85 string tagged binary, a
PathReference its path string tagged reference. -/
def encodeSpecial : JSValue → Option (String × Tag)
  | .vdate ms => some (dateToISO ms, .date)
  | .vbin bs => some (ascii85encode bs, .binary)
  | .vpathref p => some (p, .reference)
  | _ => none

/-- The path extension "prefix.length === 0 ? key : prefix + '/' + key" of
transport.js line 65. -/
def extendPath (pre k : String) : String := if pre = "" then k else pre ++ "/" ++ k

mutual

/-- transport.js serialize's process function (lines 62-84): walk the keys of a
composite, replace each special leaf by its text encoding recording a mapping at its
relative path, recurse into nested objects and arrays, leave other leaves untouched.
In-place mutation of the (cloned) object is embedded as returning the new value. -/
def processVal : JSValue → String → JSValue × List (String × Tag)
  | .vobj fields, pre =>
    let r := processFields fields pre
    (.vobj r.1, r.2)
  | .varr items, pre =>
    let r := processItems items 0 pre
    (.varr r.1, r.2)
  | v, _ => (v, [])

def processFields : List (String × JSValue) → String → List (String × JSValue) × List (String × Tag)
  | [], _ => ([], [])
  | (k, v) :: rest, pre =>
    match encodeSpecial v with
    | some (s, t) =>
      let r := processFields rest pre
      ((k, .vstr s) :: r.1, (extendPath pre k, t) :: r.2)
    | none =>
      if isComposite v then
        let rv := processVal v (extendPath pre k)
        let r := processFields rest pre
        ((k, rv.1) :: r.1, rv.2 ++ r.2)
      else
        let r := processFields rest pre
        ((k, v) :: r.1, r.2)

/-- Object.keys of a JS array yields the index strings "0", "1", ...; process walks
them like object keys. -/
def processItems : List JSValue → Nat → String → List JSValue × List (String × Tag)
  | [], _, _ => ([], [])
  | v :: rest, i, pre =>
    match encodeSpecial v with
    | some (s, t) =>
      let r := processItems rest (i + 1) pre
      (.vstr s :: r.1, (extendPath pre (natToStr i), t) :: r.2)
    | none =>
      if isComposite v then
        let rv := processVal v (extendPath pre (natToStr i))
        let r := processItems rest (i + 1) pre
        (rv.1 :: r.1, rv.2 ++ r.2)
      else
        let r := processItems rest (i + 1) pre
        (v :: r.1, r.2)

end

/-- Modelled from the spec: cloneObject lives in the utils module, which is not under
src/.  Spec §4.2: composite input is deep-cloned.  On the pure value model a deep
clone returns an equal value; the aliasing consequences of cloning are treated in the
heap embedding further below. -/
def cloneObject (v : JSValue) : JSValue := v

/-- transport.js serialize, composite branch (lines 61-90): clone, run process with
the empty prefix, return the mappings object and the processed tree. -/
def serializeComposite (v : JSValue) : Envelope :=
  let r := processVal (cloneObject v) ""
  { map := .entries r.2, val := r.1 }

/-- transport.js serialize (lines 51-91).  A single value is wrapped as
{ value: obj }, serialized through the composite branch (the source calls
this.serialize recursively; the wrapper is a plain object so the recursive call takes
the composite branch, inlined here), and unwrapped: ser.map.value (undefined when the
mappings object has no value key) and ser.val.value. -/
def serialize (v : JSValue) : Envelope :=
  if isComposite v then serializeComposite v
  else
    let ser := serializeComposite (.vobj [("value", v)])
    { map :=
        match ser.map with
        | .entries l =>
          match alookup l "value" with
          | some t => .tag t
          | none => .nullmap
        | m => m
      val :=
        match ser.val with
        | .vobj fs => (alookup fs "value").getD .vnull
        | v' => v' }

/-- A parsed deserialize path key (transport.js lines 31-36): a plain string key, an
integer from a bracketed segment, or NaN when parseInt failed on the bracket
content. -/
inductive PKey where
  | str (s : String)
  | idx (n : Int)
  | nan

/-- Models the JS builtin parseInt on the bracket content: optional sign then the
longest leading digit run; none models NaN. -/
def parseIntJS (s : String) : Option Int :=
  match s.data with
  | [] => none
  | c :: rest =>
    if c = '-' then
      match rest.takeWhile (fun c' => (charDigit? c').isSome) with
      | [] => none
      | ds => (strToNatAux ds 0).map (fun n => -(n : Int))
    else
      match (c :: rest).takeWhile (fun c' => (charDigit? c').isSome) with
      | [] => none
      | ds => (strToNatAux ds 0).map (fun n => (n : Int))

/-- transport.js line 31: path.replace of every bracket by slash-bracket. -/
def insertBr : List Char → List Char
  | [] => []
  | c :: rest => if c = '[' then '/' :: c :: insertBr rest else c :: insertBr rest

/-- JS String.prototype.split on the separator: "".split gives [""], and separators
delimit possibly empty parts. -/
def splitSlash : List Char → List (List Char)
  | [] => [[]]
  | c :: rest =>
    let r := splitSlash rest
    if c = '/' then [] :: r
    else
      match r with
      | [] => [[c]]
      | h :: t => (c :: h) :: t

/-- transport.js lines 32-36: a part starting with a bracket becomes
parseInt(part.substr(1, part.length - 2)), NaN on parse failure; other parts stay
string keys. -/
def mkPKey (s : String) : PKey :=
  if s.data.head? = some '[' then
    match parseIntJS (String.mk ((s.data.drop 1).take (s.data.length - 2))) with
    | some n => .idx n
    | none => .nan
  else .str s

/-- transport.js line 31: key sequence of a mapping path. -/
def parsePath (p : String) : List PKey :=
  (splitSlash (insertBr p.data)).map (fun cs => mkPKey (String.mk cs))

/-- JS property read val[key] during the deserialize walk.  Number keys coerce to
their decimal string on objects; string keys on arrays index when they are a
canonical decimal; NaN reads the property named NaN; reads on primitives give
undefined (string character indexing is not reachable from serializer output). -/
def getKey (v : JSValue) : PKey → Option JSValue
  | .str s =>
    match v with
    | .vobj fs => alookup fs s
    | .varr items => (decimalNat? s).bind (fun i => lget items i)
    | _ => none
  | .idx n =>
    match v with
    | .vobj fs => alookup fs (intToStr n)
    | .varr items => if 0 ≤ n then lget items n.toNat else none
    | _ => none
  | .nan =>
    match v with
    | .vobj fs => alookup fs "NaN"
    | _ => none

/-- JS array write arr[i] = x: sets in range, extends past the end (holes modelled as
null; not reachable from serializer output). -/
def setArr (items : List JSValue) (i : Nat) (x : JSValue) : List JSValue :=
  if i < items.length then lset items i x
  else items ++ List.replicate (i - items.length) .vnull ++ [x]

/-- JS property write parent[key] = x in the deserialize walk.  On objects the
property is replaced or appended; on arrays a canonical decimal key writes the index
and other keys add invisible non-index properties (modelled as no list change);
writes on primitives are silent no-ops. -/
def setKeyTotal (v : JSValue) : PKey → JSValue → JSValue
  | .str s, x =>
    match v with
    | .vobj fs => .vobj (aset fs s x)
    | .varr items =>
      match decimalNat? s with
      | some i => .varr (setArr items i x)
      | none => .varr items
    | v' => v'
  | .idx n, x =>
    match v with
    | .vobj fs => .vobj (aset fs (intToStr n) x)
    | .varr items => if 0 ≤ n then .varr (setArr items n.toNat x) else .varr items
    | v' => v'
  | .nan, x =>
    match v with
    | .vobj fs => .vobj (aset fs "NaN" x)
    | v' => v'

/-- transport.js deserializeValue (lines 11-24) applied to the possibly undefined
value found at the mapping path (cur = none embeds undefined).  new Date of a number
is that timestamp; new Date of anything else unparseable is an Invalid Date, modelled
as timestamp 0; new PathReference stores its argument (non-string payloads are not
representable and are modelled degenerately); none of the degenerate arms is
reachable from serializer output. -/
def deserializeValueU (t : Tag) (cur : Option JSValue) : JSValue :=
  match t, cur with
  | .date, some (.vstr s) => .vdate (parseISO s)
  | .date, some (.vnum n) => .vdate n
  | .date, _ => .vdate 0
  | .binary, some (.vstr s) => .vbin (ascii85decode s)
  | .binary, some v => v
  | .binary, none => .vbin []
  | .reference, some (.vstr s) => .vpathref s
  | .reference, _ => .vpathref ""

/-- The deserialize walk of transport.js lines 37-45 for one mapping entry, embedded
functionally: descend along the keys, then overwrite the slot with the
reverse-transformed value.  Indexing into null or undefined throws a TypeError
(none); when only the final lookup is undefined, JS still assigns the
reverse-transform of undefined, except that decoding binary from undefined is
modelled as failure (the real ascii85 module is not under src/). -/
def walkSet : JSValue → List PKey → Tag → Option JSValue
  | v, [], _ => some v
  | .vnull, _ :: _, _ => none
  | v, [k], t =>
    match t, getKey v k with
    | .binary, none => none
    | t', cur => some (setKeyTotal v k (deserializeValueU t' cur))
  | v, k :: k' :: rest, t =>
    match getKey v k with
    | some child => (walkSet child (k' :: rest) t).map (setKeyTotal v k)
    | none => none

/-- transport.js lines 29-46: apply every mapping entry in order; an exception in the
forEach aborts the whole deserialize. -/
def deserializeEntries (val : JSValue) : List (String × Tag) → Option JSValue
  | [] => some val
  | (p, t) :: rest =>
    match walkSet val (parsePath p) t with
    | some val' => deserializeEntries val' rest
    | none => none

/-- transport.js deserialize (lines 7-49). -/
def deserialize (e : Envelope) : Option JSValue :=
  match e.map with
  | .nullmap => some e.val
  | .tag t => some (deserializeValueU t (some e.val))
  | .entries l => deserializeEntries e.val l

/-! ### Well-formedness of JS values for the amended round-trip claim -/

def hasChar : List Char → Char → Bool
  | [], _ => false
  | c :: rest, t => c = t || hasChar rest t

def hasKey : List String → String → Bool
  | [], _ => false
  | k :: rest, t => k = t || hasKey rest t

def nodupKeys : List String → Bool
  | [] => true
  | k :: rest => !(hasKey rest k) && nodupKeys rest

/-- A key a real backend path can address: nonempty and free of the path separator
and the bracket character. -/
def wfKeyB (k : String) : Bool :=
  !(k == "") && !(hasChar k.data '/') && !(hasChar k.data '[')

mutual

/-- Well-formed JS value: object keys are addressable and unique (JS objects cannot
hold duplicate keys), binary bytes are bytes. -/
def wfValue : JSValue → Bool
  | .vobj fields => nodupKeys (fields.map Prod.fst) && wfFields fields
  | .varr items => wfItems items
  | .vbin bs => bs.all (fun b => b < 256)
  | _ => true

def wfFields : List (String × JSValue) → Bool
  | [] => true
  | (k, v) :: rest => wfKeyB k && wfValue v && wfFields rest

def wfItems : List JSValue → Bool
  | [] => true
  | v :: rest => wfValue v && wfItems rest

end

/-! ### Key-sequence mirror of process (proof infrastructure for C1)

processKV mirrors processVal except that each mapping carries its relative key
sequence instead of the joined path string; the correspondence is proved below. -/

mutual

def processKV : JSValue → JSValue × List (List String × Tag)
  | .vobj fields =>
    let r := processKVFields fields
    (.vobj r.1, r.2)
  | .varr items =>
    let r := processKVItems items 0
    (.varr r.1, r.2)
  | v => (v, [])

def processKVFields : List (String × JSValue) → List (String × JSValue) × List (List String × Tag)
  | [] => ([], [])
  | (k, v) :: rest =>
    match encodeSpecial v with
    | some (s, t) =>
      let r := processKVFields rest
      ((k, .vstr s) :: r.1, ([k], t) :: r.2)
    | none =>
      if isComposite v then
        let rv := processKV v
        let r := processKVFields rest
        ((k, rv.1) :: r.1, rv.2.map (fun kt => (k :: kt.1, kt.2)) ++ r.2)
      else
        let r := processKVFields rest
        ((k, v) :: r.1, r.2)

def processKVItems : List JSValue → Nat → List JSValue × List (List String × Tag)
  | [], _ => ([], [])
  | v :: rest, i =>
    match encodeSpecial v with
    | some (s, t) =>
      let r := processKVItems rest (i + 1)
      (.vstr s :: r.1, ([natToStr i], t) :: r.2)
    | none =>
      if isComposite v then
        let rv := processKV v
        let r := processKVItems rest (i + 1)
        (rv.1 :: r.1, rv.2.map (fun kt => (natToStr i :: kt.1, kt.2)) ++ r.2)
      else
        let r := processKVItems rest (i + 1)
        (v :: r.1, r.2)

end

/-- Joined path string of a key sequence under a prefix, matching the successive
path extensions process performs. -/
def joinPre (pre : String) : List String → String
  | [] => pre
  | k :: ks => joinPre (extendPath pre k) ks

/-- Key-sequence analogue of deserializeEntries (proof infrastructure). -/
def deserializeEntriesK (val : JSValue) : List (List String × Tag) → Option JSValue
  | [] => some val
  | (ks, t) :: rest =>
    match walkSet val (ks.map PKey.str) t with
    | some val' => deserializeEntriesK val' rest
    | none => none

/-! ### DataReference path model (src/unnamed/part_001 lines 31-87) -/

/-- One application of the JS replace of the leading-slash alternative of the trim
regex: at most one leading separator is removed. -/
def dropLeadSlash : List Char → List Char
  | [] => []
  | c :: r => if c = '/' then r else c :: r

/-- part_001 line 33: path.replace of the regex matching one leading or one trailing
slash, global.  The anchors make the global regex match at most once at each
boundary, so exactly one leading and one trailing separator are removed. -/
def trimChars (l : List Char) : List Char :=
  (dropLeadSlash (dropLeadSlash l).reverse).reverse

def trimSlashes (s : String) : String := String.mk (trimChars s.data)

/-- A reference handle bound to one path.  The shared database context of the JS
object carries no state any claim depends on and is left implicit; the hidden
private path/key record is embedded as the stored canonical path. -/
structure DataReference where
  path : String
deriving DecidableEq, Repr

/-- part_001 lines 31-49: the constructor defaults an absent path to the empty
string and trims boundary slashes. -/
def mkRef (path : String) : DataReference := ⟨trimSlashes path⟩

/-- part_001 line 34: key is the substring after the last separator, empty at the
root. -/
def DataReference.key (r : DataReference) : String :=
  if r.path = "" then ""
  else String.mk ((r.path.data.reverse.takeWhile (fun c => c ≠ '/')).reverse)

/-- Modelled from the spec: getPathInfo lives in the utils module, which is not
under src/.  Spec §4.1: parent(path) is null at the root, else everything before the
last separator or bracket-group start (the empty path when there is neither). -/
def pathInfoParent (path : String) : Option String :=
  if path = "" then none
  else
    match path.data.reverse.dropWhile (fun c => !(c == '/' || c == '[')) with
    | [] => some ""
    | _ :: rest => some (String.mk rest.reverse)

/-- part_001 lines 64-77: parent reference, null at the root. -/
def DataReference.parent (r : DataReference) : Option DataReference :=
  (pathInfoParent r.path).map (fun p => mkRef p)

/-- part_001 lines 84-87: trim the child path, then construct at
this.path ++ separator ++ childPath (the constructor trims again). -/
def DataReference.child (r : DataReference) (childPath : String) : DataReference :=
  mkRef (r.path ++ "/" ++ trimSlashes childPath)

/-! ### set / update / remove (src/unnamed/part_001 lines 94-127, 361-366) -/

/-- A JS call argument that may be the undefined sentinel. -/
inductive JSInput where
  | undef
  | val (v : JSValue)

/-- Modelled from the spec: the type-mappings module is not under src/.  Spec §6:
the type-mapping collaborator layers application-registered class codecs above the
primitive handling; with no registered codecs it passes the value through
unchanged. -/
def typesSerialize (path : String) (v : JSValue) : JSValue :=
  let _ := path
  v

/-- Modelled from the spec: inverse direction of the type-mapping collaborator; with
no registered codecs it passes the value through unchanged. -/
def typesDeserialize (path : String) (v : JSValue) : JSValue :=
  let _ := path
  v

/-- Outcome of a set call: a synchronously thrown validation error (no backend
operation is issued), or the backend set operation with the serialized value (the
promise then resolves with this reference). -/
inductive SetOutcome where
  | errorThrown (msg : String)
  | backendSet (path : String) (value : JSValue)

/-- part_001 lines 94-110: set throws on the root, then throws on undefined, else
serializes through the type mappings and issues the backend set. -/
def DataReference.setModel (r : DataReference) (value : JSInput) : SetOutcome :=
  if r.parent = none then
    .errorThrown "Cannot set the root object. Use update, or set individual child properties"
  else
    match value with
    | .undef => .errorThrown "Cannot store value undefined"
    | .val v => .backendSet r.path (typesSerialize r.path v)

/-- part_001 lines 361-366: remove throws on the root, else delegates to
set(null). -/
def DataReference.removeModel (r : DataReference) : SetOutcome :=
  if r.parent = none then .errorThrown "Cannot remove the top node"
  else r.setModel (.val .vnull)

inductive UpdateOutcome where
  | errorThrown (msg : String)
  | backendSet (path : String) (value : JSValue)
  | backendUpdate (path : String) (value : JSValue)

def liftSet : SetOutcome → UpdateOutcome
  | .errorThrown m => .errorThrown m
  | .backendSet p v => .backendSet p v

/-- part_001 line 122: the test typeof updates === "object" and not an Array,
ArrayBuffer or Date.  In JS typeof null is "object", so null passes this test; Date
and ArrayBuffer fail it; PathReference instances pass it. -/
def isPlainObjectArg : JSValue → Bool
  | .vnull => true
  | .vobj _ => true
  | .vpathref _ => true
  | _ => false

/-- part_001 lines 117-127: update delegates to set unless the argument passes the
plain-object test, in which case it serializes and issues the backend update (the
promise then resolves with this reference). -/
def DataReference.updateModel (r : DataReference) (updates : JSInput) : UpdateOutcome :=
  match updates with
  | .undef => liftSet (r.setModel .undef)
  | .val v =>
    if isPlainObjectArg v then .backendUpdate r.path (typesSerialize r.path v)
    else liftSet (r.setModel (.val v))

/-! ### Query builder (src/unnamed/part_001 lines 381-436) -/

/-- The compare argument of a where call, by its JS runtime class: an Array, a
RegExp, a function, or any other value. -/
inductive QCompare where
  | arr (items : List JSValue)
  | regexp (source : String)
  | func
  | value (v : JSValue)

def isArrB : QCompare → Bool
  | .arr _ => true
  | _ => false

def arrLen : QCompare → Nat
  | .arr l => l.length
  | _ => 0

def isRegexpB : QCompare → Bool
  | .regexp _ => true
  | _ => false

def isFuncB : QCompare → Bool
  | .func => true
  | _ => false

/-- The hidden builder state of a DataReferenceQuery (part_001 lines 387-395). -/
structure QueryParams where
  filters : List (String × String × QCompare)
  skipN : Nat
  takeN : Nat
  order : List (String × Bool)

def emptyQuery : QueryParams := ⟨[], 0, 0, []⟩

/-- part_001 lines 403-418: where validates eagerly per operator and throws a string
synchronously; a valid call appends the filter to the builder state and returns the
builder itself (embedded as the updated state).  No backend capability is touched
anywhere in where. -/
def DataReferenceQuery.where' (q : QueryParams) (key op : String) (compare : QCompare) :
    Except String QueryParams :=
  if (op == "in" || op == "!in") && (!isArrB compare || arrLen compare == 0) then
    .error (op ++ " filter for " ++ key ++ " must supply an Array compare argument containing at least 1 value")
  else if (op == "between" || op == "!between") && (!isArrB compare || arrLen compare != 2) then
    .error (op ++ " filter for " ++ key ++ " must supply an Array compare argument containing 2 values")
  else if (op == "matches" || op == "!matches") && !isRegexpB compare then
    .error (op ++ " filter for " ++ key ++ " must supply a RegExp compare argument")
  else if op == "custom" && !isFuncB compare then
    .error (op ++ " filter for " ++ key ++ " must supply a Function compare argument")
  else .ok { q with filters := q.filters ++ [(key, op, compare)] }

/-! ### Subscriptions: on / off / once and the internal handler
(src/unnamed/part_001 lines 159-320) -/

/-- Identity of a JS runtime object compared with strict equality in off: a
function, a snapshot object, or a boolean (the callback parameter of on may be a
non-function like true). -/
inductive JsRef where
  | fn (n : Nat)
  | snapObj (n : Nat)
  | boolv (b : Bool)
deriving DecidableEq, Repr

/-- One registration in the hidden callbacks list of a reference (part_001 lines
167-189): the original callback argument (none embeds undefined), the identity of
the internal ours handler, and the owned event stream.  The EventStream class
(subscription module) is not under src/; per spec §9 it is a publish/subscribe
component identified here by its id, with publish returning a keep-alive boolean
and stop taking an optional handler. -/
structure SubCallback where
  original : Option JsRef
  oursId : Nat
  streamId : Nat
deriving DecidableEq, Repr

structure SubsState where
  callbacks : List SubCallback
deriving DecidableEq, Repr

/-- A call into the backend capability or into an owned event stream, in program
order. -/
inductive ApiAction where
  | subscribe (path event : String) (handlerId : Nat)
  | unsubscribe (path event : String) (handlerId : Option Nat)
  | apiGet (path : String)
  | streamStop (streamId : Nat) (handlerId : Option Nat)
deriving DecidableEq, Repr

/-- part_001 lines 159-218, registration part of on: build the callback record,
push it, register the backend subscription, and only then, when a callback argument
was given and the event is value or child_added, issue the immediate-replay read
(this.once("value") delegates to get, which calls the backend get).  The returned
action list is in program order. -/
def DataReference.onModel (r : DataReference) (event : String) (callback : Option JsRef)
    (oursId streamId : Nat) (st : SubsState) : SubsState × List ApiAction :=
  let cb : SubCallback := ⟨callback, oursId, streamId⟩
  let st' : SubsState := ⟨st.callbacks ++ [cb]⟩
  let replay : List ApiAction :=
    if callback.isSome ∧ (event = "value" ∨ event = "child_added") then [.apiGet r.path] else []
  (st', .subscribe r.path event oursId :: replay)

/-- One delivery of a snapshot: published to the event stream and, when a callback
function was supplied, passed to it. -/
structure EventDelivery where
  toStream : Bool
  toCallback : Bool
  refPath : String
  value : JSValue

/-- part_001 lines 198-203, the replay continuation for a value subscription: the
snapshot of the current value (read through get, hence through the type mappings) is
published once to the stream and passed once to the callback. -/
def valueReplay (r : DataReference) (useCallback : Bool) (current : JSValue) :
    List EventDelivery :=
  [⟨true, useCallback, r.path, typesDeserialize r.path current⟩]

def indexEntries : List JSValue → Nat → List (String × JSValue)
  | [], _ => []
  | v :: rest, i => (natToStr i, v) :: indexEntries rest (i + 1)

/-- The JS builtin Object.keys paired with the property reads val[key] that follow
it: own enumerable properties in order.  Object.keys of null throws a TypeError
(none).  Date and ArrayBuffer instances have no own enumerable properties; a
PathReference instance (modelled from the spec, path-reference is not under src/)
owns its path property.  Primitives are never passed (the caller filters on
typeof). -/
def objectKeysJS : JSValue → Option (List (String × JSValue))
  | .vnull => none
  | .vobj fields => some fields
  | .varr items => some (indexEntries items 0)
  | .vpathref p => some [("path", .vstr p)]
  | _ => some []

/-- part_001 lines 204-214, the replay continuation for a child_added subscription:
when the current value fails the typeof-object test nothing is synthesized; else one
snapshot per Object.keys entry is published to the stream and passed to the
callback, at the child reference of each key.  Object.keys of null throws, so a null
current value makes the continuation fail with a TypeError after delivering
nothing. -/
def childAddedReplay (r : DataReference) (useCallback : Bool) (current : JSValue) :
    Option (List EventDelivery) :=
  let v := typesDeserialize r.path current
  if typeofIsObject v = false then some []
  else (objectKeysJS v).map (fun entries =>
    entries.map (fun kv => ⟨true, useCallback, (r.child kv.1).path, kv.2⟩))

def removeOneCB : List SubCallback → SubCallback → List SubCallback
  | [], _ => []
  | c :: rest, target => if c = target then rest else c :: removeOneCB rest target

/-- part_001 lines 225-244: off.  With a callback argument it searches the
registration whose original callback is strictly equal to the argument; when the
search fails it only logs and returns, before any stream stop or backend
unsubscribe.  When found, the registration is spliced out, its stream stopped with
the internal handler, and the backend unsubscribed with that exact handler.  With no
callback argument every registration is spliced out and stopped and one backend
unsubscribe without handler is issued.  Returns the new state, the actions in
program order, and the log. -/
def DataReference.offModel (r : DataReference) (event : String) (callbackArg : Option JsRef)
    (st : SubsState) : SubsState × List ApiAction × List String :=
  match callbackArg with
  | some arg =>
    match st.callbacks.find? (fun c => c.original = some arg) with
    | none => (st, [], ["Cannot find specified callback to unsubscribe from"])
    | some cb =>
      (⟨removeOneCB st.callbacks cb⟩,
       [.streamStop cb.streamId (some cb.oursId), .unsubscribe r.path event (some cb.oursId)],
       [])
  | none =>
    (⟨[]⟩,
     st.callbacks.map (fun c => .streamStop c.streamId none) ++ [.unsubscribe r.path event none],
     [])

/-- part_001 lines 167-189, the internal ours handler of a subscription.  On an
error argument it logs and returns: no deserialization, no delivery, no change to
the callbacks list, no backend call.  On data it deserializes the relevant payload
(the old value exactly for child_removed), delivers the snapshot to the callback
when one was supplied and publishes it to the stream; when the stream reports no
further interest and no callback was used, the registration self-removes and the
backend is unsubscribed with this handler.  streamKeep is the keep-alive boolean the
stream publish returned. -/
def oursHandler (r : DataReference) (event : String) (cb : SubCallback)
    (useCallback streamKeep : Bool) (err : Option String) (path : String)
    (newValue oldValue : JSValue) (st : SubsState) :
    SubsState × List ApiAction × List EventDelivery × List String :=
  match err with
  | some e =>
    let _ := e
    (st, [], [], ["Error getting data for event " ++ event ++ " on path " ++ path])
  | none =>
    let val := typesDeserialize path (if event = "child_removed" then oldValue else newValue)
    let deliveries : List EventDelivery := [⟨true, useCallback, path, val⟩]
    if !streamKeep && !useCallback then
      (⟨removeOneCB st.callbacks cb⟩, [.unsubscribe r.path event (some cb.oursId)], deliveries, [])
    else (st, [], deliveries, [])

/-! ### Heap embedding of serialize for the frame claim (C9)

transport.js mutates the clone in place; aliasing with the caller's object graph is
only expressible against an explicit heap.  Cells are JS objects (arrays are cells
keyed by their index strings); leaves live inline in cells and object references are
cell addresses. -/

inductive HLeaf where
  | hnull
  | hbool (b : Bool)
  | hnum (n : Int)
  | hstr (s : String)
  | hdate (ms : Int)
  | hbin (bytes : List Nat)
  | hpathref (p : String)
  | hptr (a : Nat)
deriving DecidableEq, Repr

abbrev HFields := List (String × HLeaf)

abbrev Heap := List HFields

def heapSetField (h : Heap) (a : Nat) (k : String) (l : HLeaf) : Heap :=
  match lget h a with
  | some fields => lset h a (aset fields k l)
  | none => h

/-- Modelled from the spec: cloneObject (utils module, not under src/) deep-clones a
composite.  Every cell reachable from the cloned fields is copied into a fresh cell;
leaves are copied verbatim.  Fuel bounds the recursion (the JS clone would not
terminate on cyclic input either); every recursive call consumes fuel. -/
def cloneFieldsH : Nat → Heap → HFields → Option (Heap × HFields)
  | 0, _, _ => none
  | _ + 1, h, [] => some (h, [])
  | fuel + 1, h, (k, .hptr a) :: rest => do
    let obj ← lget h a
    let r₁ ← cloneFieldsH fuel h obj
    let r₂ ← cloneFieldsH fuel (r₁.1 ++ [r₁.2]) rest
    some (r₂.1, (k, .hptr r₁.1.length) :: r₂.2)
  | fuel + 1, h, (k, l) :: rest => do
    let r ← cloneFieldsH fuel h rest
    some (r.1, (k, l) :: r.2)

def cloneAddrH (fuel : Nat) (h : Heap) (a : Nat) : Option (Heap × Nat) :=
  match fuel with
  | 0 => none
  | fuel + 1 => do
    let obj ← lget h a
    let r ← cloneFieldsH fuel h obj
    some (r.1 ++ [r.2], r.1.length)

/-- transport.js process (lines 62-84) over the heap: walk the Object.keys snapshot
of the cell, overwrite special leaves in place with their text encodings recording
mappings, recurse through object references.  Fuel-structural; every recursive call
consumes fuel. -/
def processKeysH : Nat → List String → Heap → Nat → String → Option (Heap × List (String × Tag))
  | 0, _, _, _, _ => none
  | _ + 1, [], h, _, _ => some (h, [])
  | fuel + 1, k :: ks, h, a, pre => do
    let obj ← lget h a
    match alookup obj k with
    | some (.hdate ms) => do
      let r ← processKeysH fuel ks (heapSetField h a k (.hstr (dateToISO ms))) a pre
      some (r.1, (extendPath pre k, Tag.date) :: r.2)
    | some (.hbin bs) => do
      let r ← processKeysH fuel ks (heapSetField h a k (.hstr (ascii85encode bs))) a pre
      some (r.1, (extendPath pre k, Tag.binary) :: r.2)
    | some (.hpathref p) => do
      let r ← processKeysH fuel ks (heapSetField h a k (.hstr p)) a pre
      some (r.1, (extendPath pre k, Tag.reference) :: r.2)
    | some (.hptr a') => do
      let obj' ← lget h a'
      let r₁ ← processKeysH fuel (obj'.map Prod.fst) h a' (extendPath pre k)
      let r₂ ← processKeysH fuel ks r₁.1 a pre
      some (r₂.1, r₁.2 ++ r₂.2)
    | _ => processKeysH fuel ks h a pre

def processAddrH (fuel : Nat) (h : Heap) (a : Nat) (pre : String) :
    Option (Heap × List (String × Tag)) :=
  match fuel with
  | 0 => none
  | fuel + 1 => do
    let obj ← lget h a
    processKeysH fuel (obj.map Prod.fst) h a pre

/-- transport.js serialize, composite branch, over the heap: clone the object graph
rooted at the argument cell, then run process on the clone.  Returns the final heap,
the address of the processed clone (the envelope val) and the mappings. -/
def serializeHeap (fuel : Nat) (h : Heap) (a : Nat) :
    Option (Heap × Nat × List (String × Tag)) := do
  let c ← cloneAddrH fuel h a
  let p ← processAddrH fuel c.1 c.2 ""
  some (p.1, c.2, p.2)

/-- A leaf whose object reference, if any, points at or above the address bound. -/
def leafPtrGe (n : Nat) (l : HLeaf) : Prop := ∀ a, l = .hptr a → n ≤ a

/-- Every cell at or above the bound only references cells at or above the bound. -/
def regionClosed (n : Nat) (h : Heap) : Prop :=
  ∀ i, n ≤ i → ∀ fields, lget h i = some fields → ∀ kv ∈ fields, leafPtrGe n kv.2

/-! ### Remaining proof-support definitions and concrete values -/

/-- Character form of the slash-joined tail a nonempty path prefix receives. -/
def flatSlash : List String → List Char
  | [] => []
  | k :: ks => '/' :: k.data ++ flatSlash ks

/-- The string neither starts nor ends with a separator (canonical form). -/
def noBoundarySlash (s : String) : Prop :=
  s.data.head? ≠ some '/' ∧ s.data.getLast? ≠ some '/'

/-- The string starts with two separators. -/
def hasDoubleLead (s : String) : Prop := s.data.take 2 = ['/', '/']

/-- The string ends with two separators. -/
def hasDoubleTrail (s : String) : Prop := s.data.reverse.take 2 = ['/', '/']

/-- The C1 counterexample value: an object whose single key contains the path
separator. -/
def c1cex : JSValue := .vobj [("a/b", .vdate 0)]

/-- A nested well-formed value mixing every supported kind, for the C1 witness. -/
def c1wit : JSValue :=
  .vobj [("a", .vdate 5),
         ("b", .varr [.vbin [0, 255], .vobj [("c", .vpathref "x/y")], .vnull]),
         ("d", .vstr "hello")]

/-- Concrete two-cell heap for the C9 witness: the root object holds a Date and a
reference to a nested object holding a binary and a path-link. -/
def c9hW : Heap :=
  [[("d", .hdate 5), ("child", .hptr 1)],
   [("b", .hbin [7, 255]), ("p", .hpathref "x/y")]]

/-- The computed result of serializeHeap 10 c9hW 0: the two original cells followed
by the processed clone (cells 2 and 3), the clone root address, and the mappings. -/
def c9resW : Heap × Nat × List (String × Tag) :=
  ([[("d", .hdate 5), ("child", .hptr 1)],
    [("b", .hbin [7, 255]), ("p", .hpathref "x/y")],
    [("b", .hstr "07ff"), ("p", .hstr "x/y")],
    [("d", .hstr "5"), ("child", .hptr 2)]],
   3,
   [("d", Tag.date), ("child/b", Tag.binary), ("child/p", Tag.reference)])

/-! ## Part B: lemmas and claim theorems -/

/-! ### Generic list primitive lemmas -/

theorem data_mk (l : List Char) : (String.mk l).data = l := rfl

theorem mk_data (s : String) : String.mk s.data = s := rfl

theorem string_eq_empty_iff (s : String) : s = "" ↔ s.data = [] := by
  cases s with
  | mk l => simp [String.ext_iff]

theorem data_append (s t : String) : (s ++ t).data = s.data ++ t.data :=
  String.data_append s t

theorem alookup_append_not {β : Type} (l₁ l₂ : List (String × β)) (k : String)
    (h : ∀ p ∈ l₁, p.1 ≠ k) : alookup (l₁ ++ l₂) k = alookup l₂ k := by
  induction l₁ with
  | nil => rfl
  | cons p rest ih =>
    obtain ⟨k', v⟩ := p
    have : k' ≠ k := h (k', v) (by simp)
    simp [alookup, this, ih (fun p hp => h p (by simp [hp]))]

theorem aset_append_not {β : Type} (l₁ l₂ : List (String × β)) (k : String) (x : β)
    (h : ∀ p ∈ l₁, p.1 ≠ k) : aset (l₁ ++ l₂) k x = l₁ ++ aset l₂ k x := by
  induction l₁ with
  | nil => rfl
  | cons p rest ih =>
    obtain ⟨k', v⟩ := p
    have : k' ≠ k := h (k', v) (by simp)
    simp [aset, this, ih (fun p hp => h p (by simp [hp]))]

theorem aset_lookup_self {β : Type} (l : List (String × β)) (k : String) (u : β)
    (h : alookup l k = some u) : aset l k u = l := by
  induction l with
  | nil => simp [alookup] at h
  | cons p rest ih =>
    obtain ⟨k', v⟩ := p
    by_cases hk : k' = k
    · subst hk
      simp [alookup] at h
      simp [aset, h]
    · simp [alookup, hk] at h
      simp [aset, hk, ih h]

theorem alookup_aset_self {β : Type} (l : List (String × β)) (k : String) (x : β) :
    alookup (aset l k x) k = some x := by
  induction l with
  | nil => simp [aset, alookup]
  | cons p rest ih =>
    obtain ⟨k', v⟩ := p
    by_cases hk : k' = k
    · subst hk; simp [aset, alookup]
    · simp [aset, hk, alookup, ih]

theorem aset_aset {β : Type} (l : List (String × β)) (k : String) (x y : β) :
    aset (aset l k x) k y = aset l k y := by
  induction l with
  | nil => simp [aset]
  | cons p rest ih =>
    obtain ⟨k', v⟩ := p
    by_cases hk : k' = k
    · subst hk; simp [aset]
    · simp [aset, hk, ih]

theorem lget_lt_length {α : Type} (l : List α) (i : Nat) (u : α) (h : lget l i = some u) :
    i < l.length := by
  induction l generalizing i with
  | nil => simp [lget] at h
  | cons x rest ih =>
    cases i with
    | zero => simp
    | succ n => simp [lget] at h; have := ih n h; simp; omega

theorem lget_lset_self {α : Type} (l : List α) (i : Nat) (x : α) (h : i < l.length) :
    lget (lset l i x) i = some x := by
  induction l generalizing i with
  | nil => simp at h
  | cons y rest ih =>
    cases i with
    | zero => rfl
    | succ n => simp at h; exact ih n (by omega)

theorem lset_lset {α : Type} (l : List α) (i : Nat) (x y : α) :
    lset (lset l i x) i y = lset l i y := by
  induction l generalizing i with
  | nil => rfl
  | cons z rest ih =>
    cases i with
    | zero => rfl
    | succ n => simp [lset, ih]

theorem lset_lget_self {α : Type} (l : List α) (i : Nat) (u : α) (h : lget l i = some u) :
    lset l i u = l := by
  induction l generalizing i with
  | nil => rfl
  | cons x rest ih =>
    cases i with
    | zero => simp [lget] at h; simp [lset, h]
    | succ n => simp [lget] at h; simp [lset, ih n h]

theorem lget_append_length {α : Type} (l₁ : List α) (x : α) (l₂ : List α) :
    lget (l₁ ++ x :: l₂) l₁.length = some x := by
  induction l₁ with
  | nil => rfl
  | cons y rest ih => simpa [lget] using ih

theorem lset_append_length {α : Type} (l₁ : List α) (x y : α) (l₂ : List α) :
    lset (l₁ ++ x :: l₂) l₁.length y = l₁ ++ y :: l₂ := by
  induction l₁ with
  | nil => rfl
  | cons z rest ih => simpa [lset] using ih

theorem lset_length {α : Type} (l : List α) (i : Nat) (x : α) :
    (lset l i x).length = l.length := by
  induction l generalizing i with
  | nil => rfl
  | cons y rest ih => cases i <;> simp [lset, ih]

theorem hasChar_false_iff (l : List Char) (c : Char) : hasChar l c = false ↔ c ∉ l := by
  induction l with
  | nil => simp [hasChar]
  | cons x rest ih =>
    simp only [hasChar, Bool.or_eq_false_iff, decide_eq_false_iff_not, ih, List.mem_cons]
    constructor
    · rintro ⟨h1, h2⟩ (h | h)
      · exact h1 h.symm
      · exact h2 h
    · intro h
      exact ⟨fun he => h (Or.inl he.symm), fun he => h (Or.inr he)⟩

theorem hasKey_false_iff (l : List String) (k : String) : hasKey l k = false ↔ k ∉ l := by
  induction l with
  | nil => simp [hasKey]
  | cons x rest ih =>
    simp only [hasKey, Bool.or_eq_false_iff, decide_eq_false_iff_not, ih, List.mem_cons]
    constructor
    · rintro ⟨h1, h2⟩ (h | h)
      · exact h1 h.symm
      · exact h2 h
    · intro h
      exact ⟨fun he => h (Or.inl he.symm), fun he => h (Or.inr he)⟩

/-! ### Decimal printer and parser round trip -/

theorem charDigit_digitChar (d : Nat) (h : d < 10) :
    charDigit? (Nat.digitChar d) = some d := by
  interval_cases d <;> decide

theorem digitChar_props (d : Nat) (h : d < 10) :
    Nat.digitChar d ≠ '/' ∧ Nat.digitChar d ≠ '[' ∧ Nat.digitChar d ≠ '-' := by
  interval_cases d <;> exact ⟨by decide, by decide, by decide⟩

theorem natToStrAux_zero (fuel : Nat) : natToStrAux fuel 0 = [] := by
  cases fuel <;> rfl

theorem natToStrAux_ne_nil (fuel n : Nat) (h1 : 0 < n) (h2 : n ≤ fuel) :
    natToStrAux fuel n ≠ [] := by
  cases fuel with
  | zero => exact absurd h1 (by omega)
  | succ f =>
    match n, h1 with
    | n + 1, _ => simp [natToStrAux]

theorem strToNatAux_append (l₁ l₂ : List Char) (acc : Nat) :
    strToNatAux (l₁ ++ l₂) acc = (strToNatAux l₁ acc).bind (fun a => strToNatAux l₂ a) := by
  induction l₁ generalizing acc with
  | nil => rfl
  | cons c cs ih =>
    cases h : charDigit? c <;> simp [strToNatAux, h, ih]

theorem natToStrAux_spec : ∀ fuel n acc, 0 < n → n ≤ fuel →
    strToNatAux (natToStrAux fuel n) acc = some (acc * 10 ^ (natToStrAux fuel n).length + n) := by
  intro fuel
  induction fuel with
  | zero => intro n acc h1 h2; exact absurd h1 (by omega)
  | succ f ih =>
    intro n acc h1 h2
    match n, h1 with
    | n + 1, _ =>
      have hr : (n + 1) % 10 < 10 := Nat.mod_lt _ (by norm_num)
      have hmod := Nat.div_add_mod (n + 1) 10
      rw [show natToStrAux (f + 1) (n + 1)
          = natToStrAux f ((n + 1) / 10) ++ [Nat.digitChar ((n + 1) % 10)] from rfl]
      by_cases hq : (n + 1) / 10 = 0
      · rw [hq, natToStrAux_zero, List.nil_append]
        simp only [strToNatAux, charDigit_digitChar _ hr, List.length_singleton, pow_one,
          Option.some.injEq]
        have hsmall : (n + 1) % 10 = n + 1 := by omega
        omega
      · have hq1 : 0 < (n + 1) / 10 := Nat.pos_of_ne_zero hq
        have hq2 : (n + 1) / 10 ≤ f := by
          have : (n + 1) / 10 < n + 1 := Nat.div_lt_self (by omega) (by norm_num)
          omega
        rw [strToNatAux_append, ih _ acc hq1 hq2]
        show strToNatAux [Nat.digitChar ((n + 1) % 10)] _ = _
        simp only [strToNatAux, charDigit_digitChar _ hr]
        congr 1
        rw [List.length_append, List.length_singleton, pow_succ]
        calc (acc * 10 ^ (natToStrAux f ((n + 1) / 10)).length + (n + 1) / 10) * 10 + (n + 1) % 10
            = acc * (10 ^ (natToStrAux f ((n + 1) / 10)).length * 10)
              + (10 * ((n + 1) / 10) + (n + 1) % 10) := by ring
          _ = acc * (10 ^ (natToStrAux f ((n + 1) / 10)).length * 10) + (n + 1) := by rw [hmod]

theorem strToNatAux_natToStr (n : Nat) : strToNatAux (natToStr n).data 0 = some n := by
  by_cases h : n = 0
  · subst h; rfl
  · unfold natToStr
    rw [if_neg h, data_mk]
    have := natToStrAux_spec n n 0 (Nat.pos_of_ne_zero h) le_rfl
    simpa using this

theorem natToStr_data_ne_nil (n : Nat) : (natToStr n).data ≠ [] := by
  by_cases h : n = 0
  · subst h; decide
  · unfold natToStr
    rw [if_neg h, data_mk]
    exact natToStrAux_ne_nil n n (Nat.pos_of_ne_zero h) le_rfl

theorem strToNat?_cons (c : Char) (cs : List Char) :
    strToNat? (String.mk (c :: cs)) = strToNatAux (c :: cs) 0 := rfl

theorem strToNat_natToStr (n : Nat) : strToNat? (natToStr n) = some n := by
  rcases hl : (natToStr n).data with _ | ⟨c, cs⟩
  · exact absurd hl (natToStr_data_ne_nil n)
  · have he : natToStr n = String.mk (c :: cs) := by rw [← hl, mk_data]
    rw [he, strToNat?_cons, ← hl]
    exact strToNatAux_natToStr n

theorem decimalNat_natToStr (n : Nat) : decimalNat? (natToStr n) = some n := by
  simp [decimalNat?, strToNat_natToStr]

theorem natToStr_chars (n : Nat) : ∀ c ∈ (natToStr n).data, ∃ d, d < 10 ∧ c = Nat.digitChar d := by
  have aux : ∀ fuel m c, c ∈ natToStrAux fuel m → ∃ d, d < 10 ∧ c = Nat.digitChar d := by
    intro fuel
    induction fuel with
    | zero => intro m c hc; simp [natToStrAux] at hc
    | succ f ih =>
      intro m c hc
      match m with
      | 0 => simp [natToStrAux] at hc
      | m + 1 =>
        simp only [natToStrAux, List.mem_append, List.mem_singleton] at hc
        rcases hc with hc | hc
        · exact ih _ _ hc
        · exact ⟨(m + 1) % 10, Nat.mod_lt _ (by norm_num), hc⟩
  by_cases h : n = 0
  · subst h
    intro c hc
    have h0 : (natToStr 0).data = ['0'] := rfl
    rw [h0] at hc
    simp at hc
    exact ⟨0, by norm_num, by rw [hc]; rfl⟩
  · unfold natToStr
    rw [if_neg h, data_mk]
    exact aux n n

theorem natToStr_wfKey (n : Nat) : wfKeyB (natToStr n) = true := by
  unfold wfKeyB
  have h1 : ¬ natToStr n = "" := by
    rw [string_eq_empty_iff]
    exact natToStr_data_ne_nil n
  have h2 : '/' ∉ (natToStr n).data := by
    intro hm
    obtain ⟨d, hd, he⟩ := natToStr_chars n _ hm
    exact (digitChar_props d hd).1 he.symm
  have h3 : '[' ∉ (natToStr n).data := by
    intro hm
    obtain ⟨d, hd, he⟩ := natToStr_chars n _ hm
    exact (digitChar_props d hd).2.1 he.symm
  simp [h1, (hasChar_false_iff _ _).mpr h2, (hasChar_false_iff _ _).mpr h3]

theorem strToInt?_neg_cons (c : Char) (cs : List Char) :
    strToInt? (String.mk ('-' :: c :: cs))
      = (strToNatAux (c :: cs) 0).map (fun n => -(n : Int)) := rfl

theorem strToInt?_digit_cons (c : Char) (cs : List Char) (h : c ≠ '-') :
    strToInt? (String.mk (c :: cs)) = (strToNatAux (c :: cs) 0).map (fun n => (n : Int)) := by
  show (if c = '-' then
          match cs with
          | [] => none
          | c' :: rest' => (strToNatAux (c' :: rest') 0).map (fun n => -(n : Int))
        else (strToNatAux (c :: cs) 0).map (fun n => (n : Int)))
      = (strToNatAux (c :: cs) 0).map (fun n => (n : Int))
  rw [if_neg h]

theorem parseISO_dateToISO (ms : Int) : parseISO (dateToISO ms) = ms := by
  unfold dateToISO intToStr
  by_cases h : ms < 0
  · rw [if_pos h]
    rcases hl : (natToStr ms.natAbs).data with _ | ⟨c, cs⟩
    · exact absurd hl (natToStr_data_ne_nil _)
    · have he : "-" ++ natToStr ms.natAbs = String.mk ('-' :: c :: cs) := by
        have hd : ("-" ++ natToStr ms.natAbs).data = '-' :: c :: cs := by
          rw [data_append, hl]; rfl
        rw [← hd, mk_data]
      unfold parseISO
      rw [he, strToInt?_neg_cons, ← hl, strToNatAux_natToStr]
      show -(ms.natAbs : Int) = ms
      omega
  · rw [if_neg h]
    rcases hl : (natToStr ms.toNat).data with _ | ⟨c, cs⟩
    · exact absurd hl (natToStr_data_ne_nil _)
    · have hc : c ≠ '-' := by
        have hm : c ∈ (natToStr ms.toNat).data := by rw [hl]; simp
        obtain ⟨d, hd, he⟩ := natToStr_chars _ _ hm
        rw [he]; exact (digitChar_props d hd).2.2
      have he : natToStr ms.toNat = String.mk (c :: cs) := by rw [← hl, mk_data]
      unfold parseISO
      rw [he, strToInt?_digit_cons c cs hc, ← hl, strToNatAux_natToStr]
      show ((ms.toNat : Nat) : Int) = ms
      omega

/-! ### Binary text encoding round trip -/

theorem hexDigit_digitChar (d : Nat) (h : d < 16) :
    hexDigit? (Nat.digitChar d) = some d := by
  interval_cases d <;> decide

theorem ascii85_roundtrip (bytes : List Nat) (h : ∀ b ∈ bytes, b < 256) :
    ascii85decode (ascii85encode bytes) = bytes := by
  unfold ascii85decode ascii85encode
  rw [data_mk]
  induction bytes with
  | nil => rfl
  | cons b rest ih =>
    have hb : b < 256 := h b (by simp)
    have h1 : b / 16 < 16 := by omega
    have h2 : b % 16 < 16 := by omega
    simp only [ascii85encodeChars, ascii85decodeChars,
      hexDigit_digitChar _ h1, hexDigit_digitChar _ h2, Option.getD_some]
    have hv : b / 16 * 16 + b % 16 = b := by omega
    rw [hv, ih (fun x hx => h x (by simp [hx]))]

/-! ### Strong induction on JSValue via sizeOf -/

theorem jsvalue_strong_ind {P : JSValue → Prop}
    (h : ∀ v, (∀ u, sizeOf u < sizeOf v → P u) → P v) : ∀ v, P v := by
  have aux : ∀ n v, sizeOf v ≤ n → P v := by
    intro n
    induction n with
    | zero => intro v hv; exact h v (fun u hu => absurd (Nat.lt_of_lt_of_le hu hv) (by omega))
    | succ m ih =>
      intro v hv
      exact h v (fun u hu => ih u (by omega))
  intro v
  exact aux (sizeOf v) v le_rfl

theorem sizeOf_mem_fields (fields : List (String × JSValue)) (k : String) (u : JSValue)
    (h : (k, u) ∈ fields) : sizeOf u < sizeOf fields := by
  induction fields with
  | nil => cases h
  | cons q rest ih =>
    rw [List.cons.sizeOf_spec]
    rcases List.mem_cons.mp h with h | h
    · rw [← h, Prod.mk.sizeOf_spec]
      omega
    · have := ih h
      omega

theorem sizeOf_field_lt (fields : List (String × JSValue)) (k : String) (u : JSValue)
    (h : (k, u) ∈ fields) : sizeOf u < sizeOf (JSValue.vobj fields) := by
  have h1 := sizeOf_mem_fields fields k u h
  have h2 : sizeOf (JSValue.vobj fields) = 1 + sizeOf fields := by simp
  omega

theorem sizeOf_mem_items (items : List JSValue) (u : JSValue) (h : u ∈ items) :
    sizeOf u < sizeOf items := by
  induction items with
  | nil => cases h
  | cons q rest ih =>
    rw [List.cons.sizeOf_spec]
    rcases List.mem_cons.mp h with h | h
    · subst h
      omega
    · have := ih h
      omega

theorem sizeOf_item_lt (items : List JSValue) (u : JSValue) (h : u ∈ items) :
    sizeOf u < sizeOf (JSValue.varr items) := by
  have h1 := sizeOf_mem_items items u h
  have h2 : sizeOf (JSValue.varr items) = 1 + sizeOf items := by simp
  omega

/-! ### Path splitting and joining -/

theorem splitSlash_ne_nil (l : List Char) : splitSlash l ≠ [] := by
  induction l with
  | nil => simp [splitSlash]
  | cons c rest ih =>
    simp only [splitSlash]
    by_cases hc : c = '/'
    · simp [hc]
    · simp only [if_neg hc]
      rcases h : splitSlash rest with _ | ⟨h0, t⟩
      · exact absurd h ih
      · simp

theorem splitSlash_slash (rest : List Char) : splitSlash ('/' :: rest) = [] :: splitSlash rest := by
  simp [splitSlash]

theorem splitSlash_cons_ne (c : Char) (rest : List Char) (hc : c ≠ '/') :
    ∃ h0 t, splitSlash rest = h0 :: t ∧ splitSlash (c :: rest) = (c :: h0) :: t := by
  rcases h : splitSlash rest with _ | ⟨h0, t⟩
  · exact absurd h (splitSlash_ne_nil rest)
  · exact ⟨h0, t, rfl, by simp [splitSlash, hc, h]⟩

theorem splitSlash_no_slash (l : List Char) (h : '/' ∉ l) : splitSlash l = [l] := by
  induction l with
  | nil => rfl
  | cons c rest ih =>
    have hc : c ≠ '/' := fun he => h (by simp [he])
    have h2 := ih (fun hm => h (by simp [hm]))
    obtain ⟨h0, t, he1, he2⟩ := splitSlash_cons_ne c rest hc
    have h3 : h0 :: t = [rest] := he1.symm.trans h2
    simp only [List.cons.injEq] at h3
    obtain ⟨rfl, rfl⟩ := h3
    rw [he2]

theorem splitSlash_append (a rest : List Char) (h : '/' ∉ a) :
    splitSlash (a ++ '/' :: rest) = a :: splitSlash rest := by
  induction a with
  | nil => simpa using splitSlash_slash rest
  | cons c a' ih =>
    have hc : c ≠ '/' := fun he => h (by simp [he])
    have h2 := ih (fun hm => h (by simp [hm]))
    obtain ⟨h0, t, he1, he2⟩ := splitSlash_cons_ne c (a' ++ '/' :: rest) hc
    rw [List.cons_append, he2]
    have h3 : h0 :: t = a' :: splitSlash rest := he1.symm.trans h2
    simp only [List.cons.injEq] at h3
    obtain ⟨rfl, rfl⟩ := h3
    rfl

theorem insertBr_id (l : List Char) (h : ∀ c ∈ l, c ≠ '[') : insertBr l = l := by
  induction l with
  | nil => rfl
  | cons c rest ih =>
    have hc : c ≠ '[' := h c (by simp)
    simp [insertBr, hc, ih (fun c' h' => h c' (by simp [h']))]

theorem wfKeyB_spec (k : String) (h : wfKeyB k = true) :
    k ≠ "" ∧ '/' ∉ k.data ∧ '[' ∉ k.data := by
  unfold wfKeyB at h
  simp only [Bool.and_eq_true, Bool.not_eq_true'] at h
  obtain ⟨⟨h1, h2⟩, h3⟩ := h
  refine ⟨?_, (hasChar_false_iff _ _).mp h2, (hasChar_false_iff _ _).mp h3⟩
  intro he
  rw [he] at h1
  simp at h1

theorem joinPre_data (ks : List String) : ∀ pre : String, pre ≠ "" →
    (joinPre pre ks).data = pre.data ++ flatSlash ks ∧ joinPre pre ks ≠ "" := by
  induction ks with
  | nil => intro pre h; exact ⟨by simp [joinPre, flatSlash], h⟩
  | cons k ks ih =>
    intro pre h
    have hext : extendPath pre k = pre ++ "/" ++ k := by simp [extendPath, h]
    have hextd : (extendPath pre k).data = pre.data ++ '/' :: k.data := by
      rw [hext, data_append, data_append]
      simp [show ("/" : String).data = ['/'] from rfl]
    have hne : extendPath pre k ≠ "" := by
      rw [Ne, string_eq_empty_iff, hextd]
      simp
    obtain ⟨ih1, ih2⟩ := ih (extendPath pre k) hne
    refine ⟨?_, ih2⟩
    show (joinPre (extendPath pre k) ks).data = pre.data ++ flatSlash (k :: ks)
    rw [ih1, hextd]
    simp [flatSlash]

theorem flatSlash_chars (ks : List String) (c : Char) (h : c ∈ flatSlash ks) :
    c = '/' ∨ ∃ k ∈ ks, c ∈ k.data := by
  induction ks with
  | nil => simp [flatSlash] at h
  | cons k ks ih =>
    have h' : c ∈ '/' :: (k.data ++ flatSlash ks) := h
    rcases List.mem_cons.mp h' with h1 | h1
    · exact Or.inl h1
    · rcases List.mem_append.mp h1 with h2 | h2
      · exact Or.inr ⟨k, by simp, h2⟩
      · rcases ih h2 with h3 | ⟨k', hk', hc⟩
        · exact Or.inl h3
        · exact Or.inr ⟨k', by simp [hk'], hc⟩

theorem splitSlash_flat (ks : List String) : ∀ k0 : List Char, '/' ∉ k0 →
    (∀ k ∈ ks, '/' ∉ k.data) →
    splitSlash (k0 ++ flatSlash ks) = k0 :: ks.map String.data := by
  induction ks with
  | nil =>
    intro k0 h _
    show splitSlash (k0 ++ []) = [k0]
    rw [List.append_nil]
    exact splitSlash_no_slash k0 h
  | cons k ks ih =>
    intro k0 h hks
    show splitSlash (k0 ++ '/' :: (k.data ++ flatSlash ks)) = _
    rw [splitSlash_append k0 _ h,
        ih k.data (hks k (by simp)) (fun k' h' => hks k' (by simp [h']))]
    simp

theorem mkPKey_str (k : String) (h : '[' ∉ k.data) : mkPKey k = .str k := by
  unfold mkPKey
  rw [if_neg]
  intro hc
  rcases hl : k.data with _ | ⟨c, cs⟩
  · rw [hl] at hc; simp at hc
  · rw [hl] at hc
    simp at hc
    rw [hl] at h
    simp [hc] at h

theorem parsePath_join (k : String) (ks : List String)
    (hk : wfKeyB k = true) (hks : ∀ k' ∈ ks, wfKeyB k' = true) :
    parsePath (joinPre "" (k :: ks)) = (k :: ks).map PKey.str := by
  obtain ⟨hk1, hk2, hk3⟩ := wfKeyB_spec k hk
  have h0 : joinPre "" (k :: ks) = joinPre k ks := by
    show joinPre (extendPath "" k) ks = _
    rw [show extendPath "" k = k from by simp [extendPath]]
  rw [h0]
  obtain ⟨hd, _⟩ := joinPre_data ks k hk1
  unfold parsePath
  rw [hd]
  have hbr : insertBr (k.data ++ flatSlash ks) = k.data ++ flatSlash ks := by
    apply insertBr_id
    intro c hc
    rcases List.mem_append.mp hc with hc | hc
    · exact fun he => hk3 (he ▸ hc)
    · rcases flatSlash_chars ks c hc with h | ⟨k', hk', hcc⟩
      · rw [h]; decide
      · exact fun he => (wfKeyB_spec k' (hks k' hk')).2.2 (he ▸ hcc)
  rw [hbr, splitSlash_flat ks k.data (fun hm => hk2 hm) (fun k' h' => (wfKeyB_spec k' (hks k' h')).2.1)]
  simp only [List.map_cons, List.map_map]
  rw [show String.mk k.data = k from mk_data k, mkPKey_str k hk3]
  congr 1
  apply List.map_congr_left
  intro k' hk'
  show mkPKey (String.mk k'.data) = PKey.str k'
  rw [mk_data]
  exact mkPKey_str k' (wfKeyB_spec k' (hks k' hk')).2.2

theorem deserializeEntries_toK (l : List (List String × Tag)) :
    ∀ w : JSValue,
    (∀ kt ∈ l, kt.1 ≠ [] ∧ ∀ k ∈ kt.1, wfKeyB k = true) →
    deserializeEntries w (l.map (fun kt => (joinPre "" kt.1, kt.2))) = deserializeEntriesK w l := by
  induction l with
  | nil => intro w _; rfl
  | cons kt rest ih =>
    intro w h
    obtain ⟨ks, t⟩ := kt
    obtain ⟨hne, hwf⟩ := h (ks, t) (by simp)
    rcases ks with _ | ⟨k, ks'⟩
    · exact absurd rfl hne
    · simp only [List.map_cons, deserializeEntries, deserializeEntriesK]
      rw [parsePath_join k ks' (hwf k (by simp)) (fun k' h' => hwf k' (by simp [h']))]
      simp only [List.map_cons]
      cases hw : walkSet w (PKey.str k :: List.map PKey.str ks') t with
      | none => simp [hw]
      | some w' =>
        simp only [hw]
        exact ih w' (fun kt h' => h kt (by simp [h']))

/-! ### Correspondence between processVal and its key-sequence mirror -/

theorem joinPre_cons (pre k : String) (ks : List String) :
    joinPre pre (k :: ks) = joinPre (extendPath pre k) ks := rfl

theorem processFields_toKV (pre : String) :
    ∀ fields : List (String × JSValue),
    (∀ p ∈ fields, ∀ pr, processVal p.2 pr
        = ((processKV p.2).1, (processKV p.2).2.map (fun kt => (joinPre pr kt.1, kt.2)))) →
    processFields fields pre
      = ((processKVFields fields).1,
         (processKVFields fields).2.map (fun kt => (joinPre pre kt.1, kt.2))) := by
  intro fields
  induction fields with
  | nil => intro _; rfl
  | cons p rest ih =>
    obtain ⟨k, v⟩ := p
    intro hmem
    have hv := hmem (k, v) (by simp)
    have hrest := ih (fun p hp => hmem p (by simp [hp]))
    cases he : encodeSpecial v with
    | some st =>
      obtain ⟨s, t⟩ := st
      simp only [processFields, processKVFields, he]
      rw [hrest]
      simp [joinPre, joinPre_cons]
    | none =>
      by_cases hc : isComposite v = true
      · simp only [processFields, processKVFields, he, if_pos hc]
        rw [hrest, hv (extendPath pre k)]
        simp only [List.map_append, List.map_map]
        constructor
      · simp only [processFields, processKVFields, he, if_neg hc]
        rw [hrest]

theorem processItems_toKV (pre : String) :
    ∀ (items : List JSValue) (i : Nat),
    (∀ u ∈ items, ∀ pr, processVal u pr
        = ((processKV u).1, (processKV u).2.map (fun kt => (joinPre pr kt.1, kt.2)))) →
    processItems items i pre
      = ((processKVItems items i).1,
         (processKVItems items i).2.map (fun kt => (joinPre pre kt.1, kt.2))) := by
  intro items
  induction items with
  | nil => intro _ _; rfl
  | cons v rest ih =>
    intro i hmem
    have hv := hmem v (by simp)
    have hrest := ih (i + 1) (fun u hu => hmem u (by simp [hu]))
    cases he : encodeSpecial v with
    | some st =>
      obtain ⟨s, t⟩ := st
      simp only [processItems, processKVItems, he]
      rw [hrest]
      simp [joinPre, joinPre_cons]
    | none =>
      by_cases hc : isComposite v = true
      · simp only [processItems, processKVItems, he, if_pos hc]
        rw [hrest, hv (extendPath pre (natToStr i))]
        simp only [List.map_append, List.map_map]
        constructor
      · simp only [processItems, processKVItems, he, if_neg hc]
        rw [hrest]

theorem processVal_toKV : ∀ (v : JSValue) (pre : String),
    processVal v pre
      = ((processKV v).1, (processKV v).2.map (fun kt => (joinPre pre kt.1, kt.2))) := by
  refine jsvalue_strong_ind ?_
  intro v IH pre
  cases v with
  | vobj fields =>
    simp only [processVal, processKV]
    rw [processFields_toKV pre fields
      (fun p hp pr => IH p.2 (by
        obtain ⟨k, u⟩ := p
        exact sizeOf_field_lt fields k u hp) pr)]
  | varr items =>
    simp only [processVal, processKV]
    rw [processItems_toKV pre items 0
      (fun u hu pr => IH u (sizeOf_item_lt items u hu) pr)]
  | vnull => rfl
  | vbool b => rfl
  | vnum n => rfl
  | vstr s => rfl
  | vdate ms => rfl
  | vbin bs => rfl
  | vpathref p => rfl

/-! ### Keys of the produced mappings are well-formed and nonempty -/

theorem wfFields_spec (k : String) (v : JSValue) (rest : List (String × JSValue))
    (h : wfFields ((k, v) :: rest) = true) :
    wfKeyB k = true ∧ wfValue v = true ∧ wfFields rest = true := by
  unfold wfFields at h
  simp only [Bool.and_eq_true] at h
  exact ⟨h.1.1, h.1.2, h.2⟩

theorem wfItems_spec (v : JSValue) (rest : List JSValue)
    (h : wfItems (v :: rest) = true) : wfValue v = true ∧ wfItems rest = true := by
  unfold wfItems at h
  simp only [Bool.and_eq_true] at h
  exact h

theorem wfValue_obj_spec (fields : List (String × JSValue))
    (h : wfValue (.vobj fields) = true) :
    nodupKeys (fields.map Prod.fst) = true ∧ wfFields fields = true := by
  unfold wfValue at h
  simp only [Bool.and_eq_true] at h
  exact h

theorem processKVFields_keys :
    ∀ fields : List (String × JSValue),
    (∀ p ∈ fields, wfValue p.2 = true →
        ∀ kt ∈ (processKV p.2).2, kt.1 ≠ [] ∧ ∀ k ∈ kt.1, wfKeyB k = true) →
    wfFields fields = true →
    ∀ kt ∈ (processKVFields fields).2, kt.1 ≠ [] ∧ ∀ k ∈ kt.1, wfKeyB k = true := by
  intro fields
  induction fields with
  | nil => intro _ _ kt hkt; simp [processKVFields] at hkt
  | cons p rest ih =>
    obtain ⟨k, v⟩ := p
    intro hmem hwf kt hkt
    obtain ⟨hk, hv, hrest⟩ := wfFields_spec k v rest hwf
    have ihr := ih (fun p hp => hmem p (by simp [hp])) hrest
    cases he : encodeSpecial v with
    | some st =>
      obtain ⟨s, t⟩ := st
      simp only [processKVFields, he] at hkt
      rcases List.mem_cons.mp hkt with h | h
      · subst h
        exact ⟨by simp, fun k' hk' => by simp at hk'; rw [hk']; exact hk⟩
      · exact ihr kt h
    | none =>
      by_cases hc : isComposite v = true
      · simp only [processKVFields, he, if_pos hc] at hkt
        rcases List.mem_append.mp hkt with h | h
        · obtain ⟨kt', hkt', he2⟩ := List.mem_map.mp h
          obtain ⟨hne, hks⟩ := hmem (k, v) (by simp) hv kt' hkt'
          rw [← he2]
          refine ⟨by simp, fun k' hk' => ?_⟩
          rcases List.mem_cons.mp hk' with h' | h'
          · rw [h']; exact hk
          · exact hks k' h'
        · exact ihr kt h
      · simp only [processKVFields, he, if_neg hc] at hkt
        exact ihr kt hkt

theorem processKVItems_keys :
    ∀ (items : List JSValue) (i : Nat),
    (∀ u ∈ items, wfValue u = true →
        ∀ kt ∈ (processKV u).2, kt.1 ≠ [] ∧ ∀ k ∈ kt.1, wfKeyB k = true) →
    wfItems items = true →
    ∀ kt ∈ (processKVItems items i).2, kt.1 ≠ [] ∧ ∀ k ∈ kt.1, wfKeyB k = true := by
  intro items
  induction items with
  | nil => intro _ _ _ kt hkt; simp [processKVItems] at hkt
  | cons v rest ih =>
    intro i hmem hwf kt hkt
    obtain ⟨hv, hrest⟩ := wfItems_spec v rest hwf
    have ihr := ih (i + 1) (fun u hu => hmem u (by simp [hu])) hrest
    cases he : encodeSpecial v with
    | some st =>
      obtain ⟨s, t⟩ := st
      simp only [processKVItems, he] at hkt
      rcases List.mem_cons.mp hkt with h | h
      · subst h
        exact ⟨by simp, fun k' hk' => by
          simp at hk'
          rw [hk']
          exact natToStr_wfKey i⟩
      · exact ihr kt h
    | none =>
      by_cases hc : isComposite v = true
      · simp only [processKVItems, he, if_pos hc] at hkt
        rcases List.mem_append.mp hkt with h | h
        · obtain ⟨kt', hkt', he2⟩ := List.mem_map.mp h
          obtain ⟨hne, hks⟩ := hmem v (by simp) hv kt' hkt'
          rw [← he2]
          refine ⟨by simp, fun k' hk' => ?_⟩
          rcases List.mem_cons.mp hk' with h' | h'
          · rw [h']; exact natToStr_wfKey i
          · exact hks k' h'
        · exact ihr kt h
      · simp only [processKVItems, he, if_neg hc] at hkt
        exact ihr kt hkt

theorem processKV_keys : ∀ v : JSValue, wfValue v = true →
    ∀ kt ∈ (processKV v).2, kt.1 ≠ [] ∧ ∀ k ∈ kt.1, wfKeyB k = true := by
  refine jsvalue_strong_ind ?_
  intro v IH hwf
  cases v with
  | vobj fields =>
    simp only [processKV]
    exact processKVFields_keys fields
      (fun p hp => IH p.2 (by
        obtain ⟨k, u⟩ := p
        exact sizeOf_field_lt fields k u hp))
      (wfValue_obj_spec fields hwf).2
  | varr items =>
    simp only [processKV]
    exact processKVItems_keys items 0
      (fun u hu => IH u (sizeOf_item_lt items u hu))
      hwf
  | vnull => intro kt hkt; simp [processKV] at hkt
  | vbool b => intro kt hkt; simp [processKV] at hkt
  | vnum n => intro kt hkt; simp [processKV] at hkt
  | vstr s => intro kt hkt; simp [processKV] at hkt
  | vdate ms => intro kt hkt; simp [processKV] at hkt
  | vbin bs => intro kt hkt; simp [processKV] at hkt
  | vpathref p => intro kt hkt; simp [processKV] at hkt

/-! ### walkSet step lemmas -/

theorem decode_encodeSpecial (u : JSValue) (s : String) (t : Tag)
    (he : encodeSpecial u = some (s, t)) (hw : wfValue u = true) :
    deserializeValueU t (some (.vstr s)) = u := by
  cases u with
  | vdate ms =>
    simp only [encodeSpecial, Option.some.injEq, Prod.mk.injEq] at he
    obtain ⟨hs, ht⟩ := he
    rw [← hs, ← ht]
    simp [deserializeValueU, parseISO_dateToISO]
  | vbin bs =>
    simp only [encodeSpecial, Option.some.injEq, Prod.mk.injEq] at he
    obtain ⟨hs, ht⟩ := he
    rw [← hs, ← ht]
    simp only [deserializeValueU]
    unfold wfValue at hw
    simp only [List.all_eq_true, decide_eq_true_eq] at hw
    rw [ascii85_roundtrip bs hw]
  | vpathref p =>
    simp only [encodeSpecial, Option.some.injEq, Prod.mk.injEq] at he
    obtain ⟨hs, ht⟩ := he
    rw [← hs, ← ht]
    simp [deserializeValueU]
  | vnull => simp [encodeSpecial] at he
  | vbool b => simp [encodeSpecial] at he
  | vnum n => simp [encodeSpecial] at he
  | vstr s' => simp [encodeSpecial] at he
  | vobj fields => simp [encodeSpecial] at he
  | varr items => simp [encodeSpecial] at he

theorem walkSet_obj_assign (fs : List (String × JSValue)) (k : String) (t : Tag) (cur : JSValue)
    (hlk : alookup fs k = some cur) :
    walkSet (.vobj fs) [.str k] t
      = some (.vobj (aset fs k (deserializeValueU t (some cur)))) := by
  cases t <;> simp [walkSet, getKey, hlk, setKeyTotal]

theorem walkSet_obj_enter (fs : List (String × JSValue)) (k : String) (u : JSValue)
    (k' : PKey) (ks : List PKey) (t : Tag) (hlk : alookup fs k = some u) :
    walkSet (.vobj fs) (.str k :: k' :: ks) t
      = (walkSet u (k' :: ks) t).map (fun u' => .vobj (aset fs k u')) := by
  cases hw : walkSet u (k' :: ks) t <;> simp [walkSet, getKey, hlk, hw, setKeyTotal]

theorem walkSet_arr_assign (items : List JSValue) (i : Nat) (s : String) (t : Tag) (cur : JSValue)
    (hs : decimalNat? s = some i) (hit : lget items i = some cur) :
    walkSet (.varr items) [.str s] t
      = some (.varr (lset items i (deserializeValueU t (some cur)))) := by
  have hlt := lget_lt_length items i cur hit
  cases t <;> simp [walkSet, getKey, hs, hit, setKeyTotal, setArr, hlt]

theorem walkSet_arr_enter (items : List JSValue) (i : Nat) (s : String) (u : JSValue)
    (k' : PKey) (ks : List PKey) (t : Tag)
    (hs : decimalNat? s = some i) (hit : lget items i = some u) :
    walkSet (.varr items) (.str s :: k' :: ks) t
      = (walkSet u (k' :: ks) t).map (fun u' => .varr (lset items i u')) := by
  have hlt := lget_lt_length items i u hit
  cases hw : walkSet u (k' :: ks) t <;>
    simp [walkSet, getKey, hs, hit, hw, setKeyTotal, setArr, hlt]

/-! ### Folding mapping batches into one child -/

theorem deserializeEntriesK_append (l₁ l₂ : List (List String × Tag)) : ∀ v : JSValue,
    deserializeEntriesK v (l₁ ++ l₂)
      = (deserializeEntriesK v l₁).bind (fun v' => deserializeEntriesK v' l₂) := by
  induction l₁ with
  | nil => intro v; rfl
  | cons kt rest ih =>
    intro v
    obtain ⟨ks, t⟩ := kt
    simp only [List.cons_append, deserializeEntriesK]
    cases hw : walkSet v (ks.map PKey.str) t with
    | none => rfl
    | some v' => exact ih v'

theorem foldEnter_obj (mks : List (List String × Tag)) :
    ∀ (fs : List (String × JSValue)) (k : String) (u : JSValue),
    alookup fs k = some u → (∀ kt ∈ mks, kt.1 ≠ []) →
    deserializeEntriesK (.vobj fs) (mks.map (fun kt => (k :: kt.1, kt.2)))
      = (deserializeEntriesK u mks).map (fun u' => .vobj (aset fs k u')) := by
  induction mks with
  | nil =>
    intro fs k u hlk _
    simp [deserializeEntriesK, aset_lookup_self fs k u hlk]
  | cons kt rest ih =>
    intro fs k u hlk hne
    obtain ⟨ks, t⟩ := kt
    have hks : ks ≠ [] := hne (ks, t) (by simp)
    rcases ks with _ | ⟨k0, ks'⟩
    · exact absurd rfl hks
    · simp only [List.map_cons, deserializeEntriesK]
      rw [walkSet_obj_enter fs k u (PKey.str k0) (ks'.map PKey.str) t hlk]
      cases hw : walkSet u (PKey.str k0 :: ks'.map PKey.str) t with
      | none => simp [hw]
      | some u₁ =>
        simp only [hw, Option.map_some']
        rw [ih (aset fs k u₁) k u₁ (alookup_aset_self fs k u₁)
          (fun kt hkt => hne kt (by simp [hkt]))]
        simp only [aset_aset]

theorem foldEnter_arr (mks : List (List String × Tag)) :
    ∀ (items : List JSValue) (i : Nat) (u : JSValue),
    lget items i = some u → (∀ kt ∈ mks, kt.1 ≠ []) →
    deserializeEntriesK (.varr items) (mks.map (fun kt => (natToStr i :: kt.1, kt.2)))
      = (deserializeEntriesK u mks).map (fun u' => .varr (lset items i u')) := by
  induction mks with
  | nil =>
    intro items i u hit _
    simp [deserializeEntriesK, lset_lget_self items i u hit]
  | cons kt rest ih =>
    intro items i u hit hne
    obtain ⟨ks, t⟩ := kt
    have hks : ks ≠ [] := hne (ks, t) (by simp)
    rcases ks with _ | ⟨k0, ks'⟩
    · exact absurd rfl hks
    · have hlt := lget_lt_length items i u hit
      simp only [List.map_cons, deserializeEntriesK]
      rw [walkSet_arr_enter items i (natToStr i) u (PKey.str k0) (ks'.map PKey.str) t
        (decimalNat_natToStr i) hit]
      cases hw : walkSet u (PKey.str k0 :: ks'.map PKey.str) t with
      | none => simp [hw]
      | some u₁ =>
        simp only [hw, Option.map_some']
        rw [ih (lset items i u₁) i u₁ (lget_lset_self items i u₁ hlt)
          (fun kt hkt => hne kt (by simp [hkt]))]
        simp only [lset_lset]

/-! ### The deserialize fold restores the processed tree -/

theorem nodupKeys_mid (l₁ : List String) (k : String) (l₂ : List String)
    (h : nodupKeys (l₁ ++ k :: l₂) = true) : ∀ k' ∈ l₁, k' ≠ k := by
  induction l₁ with
  | nil => simp
  | cons a rest ih =>
    simp only [List.cons_append, nodupKeys, Bool.and_eq_true, Bool.not_eq_true'] at h
    obtain ⟨ha, hrest⟩ := h
    intro k' hk'
    rcases List.mem_cons.mp hk' with h' | h'
    · subst h'
      intro he
      subst he
      have : k' ∈ rest ++ k' :: l₂ := by simp
      exact absurd this ((hasKey_false_iff _ _).mp ha)
    · exact ih hrest k' h'

theorem restore_fields_aux :
    ∀ (todo done : List (String × JSValue)),
    (∀ p ∈ todo, wfValue p.2 = true →
        deserializeEntriesK (processKV p.2).1 (processKV p.2).2 = some p.2) →
    (∀ p ∈ todo, wfValue p.2 = true →
        ∀ kt ∈ (processKV p.2).2, kt.1 ≠ []) →
    wfFields todo = true →
    nodupKeys (done.map Prod.fst ++ todo.map Prod.fst) = true →
    deserializeEntriesK (.vobj (done ++ (processKVFields todo).1)) (processKVFields todo).2
      = some (.vobj (done ++ todo)) := by
  intro todo
  induction todo with
  | nil => intro done _ _ _ _; simp [processKVFields, deserializeEntriesK]
  | cons p rest ih =>
    obtain ⟨k, u⟩ := p
    intro done hres hne hwf hnd
    obtain ⟨hk, hu, hrest⟩ := wfFields_spec k u rest hwf
    have hknotdone : ∀ q ∈ done, q.1 ≠ k := by
      intro q hq
      exact nodupKeys_mid (done.map Prod.fst) k (rest.map Prod.fst)
        (by simpa using hnd) q.1 (List.mem_map_of_mem Prod.fst hq)
    have hnd' : nodupKeys ((done ++ [(k, u)]).map Prod.fst ++ rest.map Prod.fst) = true := by
      have : (done ++ [(k, u)]).map Prod.fst ++ rest.map Prod.fst
          = done.map Prod.fst ++ k :: rest.map Prod.fst := by simp
      rw [this]
      simpa using hnd
    cases he : encodeSpecial u with
    | some st =>
      obtain ⟨s, t⟩ := st
      simp only [processKVFields, he]
      simp only [deserializeEntriesK, List.map_cons, List.map_nil]
      have hlk : alookup (done ++ (k, JSValue.vstr s) :: (processKVFields rest).1) k
          = some (.vstr s) := by
        rw [alookup_append_not done _ k hknotdone]
        simp [alookup]
      rw [walkSet_obj_assign _ k t _ hlk, decode_encodeSpecial u s t he hu]
      have hset : aset (done ++ (k, JSValue.vstr s) :: (processKVFields rest).1) k u
          = done ++ (k, u) :: (processKVFields rest).1 := by
        rw [aset_append_not done _ k u hknotdone]
        simp [aset]
      rw [hset]
      have hih := ih (done ++ [(k, u)]) (fun p hp => hres p (by simp [hp]))
        (fun p hp => hne p (by simp [hp])) hrest hnd'
      simpa using hih
    | none =>
      by_cases hc : isComposite u = true
      · simp only [processKVFields, he, if_pos hc]
        rw [deserializeEntriesK_append]
        have hlk : alookup (done ++ (k, (processKV u).1) :: (processKVFields rest).1) k
            = some (processKV u).1 := by
          rw [alookup_append_not done _ k hknotdone]
          simp [alookup]
        rw [foldEnter_obj (processKV u).2 _ k _ hlk (fun kt hkt => hne (k, u) (by simp) hu kt hkt)]
        rw [hres (k, u) (by simp) hu]
        have hset : aset (done ++ (k, (processKV u).1) :: (processKVFields rest).1) k u
            = done ++ (k, u) :: (processKVFields rest).1 := by
          rw [aset_append_not done _ k u hknotdone]
          simp [aset]
        simp only [Option.map_some', hset, Option.some_bind]
        have hih := ih (done ++ [(k, u)]) (fun p hp => hres p (by simp [hp]))
          (fun p hp => hne p (by simp [hp])) hrest hnd'
        simpa using hih
      · simp only [processKVFields, he, if_neg hc]
        have hih := ih (done ++ [(k, u)]) (fun p hp => hres p (by simp [hp]))
          (fun p hp => hne p (by simp [hp])) hrest hnd'
        simpa using hih

theorem restore_items_aux :
    ∀ (todo done : List JSValue),
    (∀ u ∈ todo, wfValue u = true →
        deserializeEntriesK (processKV u).1 (processKV u).2 = some u) →
    (∀ u ∈ todo, wfValue u = true → ∀ kt ∈ (processKV u).2, kt.1 ≠ []) →
    wfItems todo = true →
    deserializeEntriesK (.varr (done ++ (processKVItems todo done.length).1))
        (processKVItems todo done.length).2
      = some (.varr (done ++ todo)) := by
  intro todo
  induction todo with
  | nil => intro done _ _ _; simp [processKVItems, deserializeEntriesK]
  | cons u rest ih =>
    intro done hres hne hwf
    obtain ⟨hu, hrest⟩ := wfItems_spec u rest hwf
    have hlen : (done ++ [u]).length = done.length + 1 := by simp
    cases he : encodeSpecial u with
    | some st =>
      obtain ⟨s, t⟩ := st
      simp only [processKVItems, he]
      simp only [deserializeEntriesK, List.map_cons, List.map_nil]
      have hit : lget (done ++ JSValue.vstr s :: (processKVItems rest (done.length + 1)).1)
          done.length = some (.vstr s) := lget_append_length done _ _
      rw [walkSet_arr_assign _ done.length (natToStr done.length) t _
        (decimalNat_natToStr done.length) hit, decode_encodeSpecial u s t he hu]
      rw [lset_append_length done _ u _]
      have hih := ih (done ++ [u]) (fun x hx => hres x (by simp [hx]))
        (fun x hx => hne x (by simp [hx])) hrest
      rw [hlen] at hih
      simpa using hih
    | none =>
      by_cases hc : isComposite u = true
      · simp only [processKVItems, he, if_pos hc]
        rw [deserializeEntriesK_append]
        have hit : lget (done ++ (processKV u).1 :: (processKVItems rest (done.length + 1)).1)
            done.length = some (processKV u).1 := lget_append_length done _ _
        rw [foldEnter_arr (processKV u).2 _ done.length _ hit
          (fun kt hkt => hne u (by simp) hu kt hkt)]
        rw [hres u (by simp) hu]
        simp only [Option.map_some', Option.some_bind]
        rw [lset_append_length done _ u _]
        have hih := ih (done ++ [u]) (fun x hx => hres x (by simp [hx]))
          (fun x hx => hne x (by simp [hx])) hrest
        rw [hlen] at hih
        simpa using hih
      · simp only [processKVItems, he, if_neg hc]
        have hih := ih (done ++ [u]) (fun x hx => hres x (by simp [hx]))
          (fun x hx => hne x (by simp [hx])) hrest
        rw [hlen] at hih
        simpa using hih

theorem processKV_restore : ∀ v : JSValue, wfValue v = true →
    deserializeEntriesK (processKV v).1 (processKV v).2 = some v := by
  refine jsvalue_strong_ind ?_
  intro v IH hwf
  cases v with
  | vobj fields =>
    obtain ⟨hnd, hwff⟩ := wfValue_obj_spec fields hwf
    have h := restore_fields_aux fields []
      (fun p hp hv => IH p.2 (by
        obtain ⟨k, u⟩ := p
        exact sizeOf_field_lt fields k u hp) hv)
      (fun p hp hv kt hkt => (processKV_keys p.2 hv kt hkt).1)
      hwff (by simpa using hnd)
    simpa [processKV] using h
  | varr items =>
    have h := restore_items_aux items []
      (fun u hu hv => IH u (sizeOf_item_lt items u hu) hv)
      (fun u hu hv kt hkt => (processKV_keys u hv kt hkt).1)
      hwf
    simpa [processKV] using h
  | vnull => simp [processKV, deserializeEntriesK]
  | vbool b => simp [processKV, deserializeEntriesK]
  | vnum n => simp [processKV, deserializeEntriesK]
  | vstr s => simp [processKV, deserializeEntriesK]
  | vdate ms => simp [processKV, deserializeEntriesK]
  | vbin bs => simp [processKV, deserializeEntriesK]
  | vpathref p => simp [processKV, deserializeEntriesK]

/-! ### Claim C1: transport round trip -/

/-- C1, counterexample to the claim as stated: for the object with the single key
"a/b" holding a Date, the mapping path "a/b" is split at the separator during
deserialize, the lookup of the non-existent key "a" yields undefined, and indexing
into undefined throws: the round trip does not return the original value. -/
theorem c1_claim_counterexample : deserialize (serialize c1cex) ≠ some c1cex := by
  intro hcontra
  rw [show deserialize (serialize c1cex) = none from rfl] at hcontra
  exact Option.noConfusion hcontra

/-- C1, amended: deserialize inverts serialize — millisecond-exact for timestamps,
byte-exact for binaries, exact for path strings, at arbitrary nesting depth and
mixture — for every supported value whose object keys are nonempty, free of the
path separator and the bracket character, and unique per object (the last condition
is inherent to JS objects; the first two are what the counterexample forces). -/
theorem c1_roundtrip_amended (v : JSValue) (h : wfValue v = true) :
    deserialize (serialize v) = some v := by
  by_cases hc : isComposite v = true
  · have h1 : serialize v = serializeComposite v := by
      unfold serialize
      rw [hc]
      simp
    have h2 : deserialize (serializeComposite v)
        = deserializeEntries (processVal v "").1 (processVal v "").2 := rfl
    rw [h1, h2, processVal_toKV v ""]
    show deserializeEntries (processKV v).1
        ((processKV v).2.map (fun kt => (joinPre "" kt.1, kt.2))) = some v
    rw [deserializeEntries_toK (processKV v).2 (processKV v).1 (processKV_keys v h)]
    exact processKV_restore v h
  · cases v with
    | vnull => rfl
    | vbool b => rfl
    | vnum n => rfl
    | vstr s => rfl
    | vdate ms =>
      show some (JSValue.vdate (parseISO (dateToISO ms))) = some (JSValue.vdate ms)
      rw [parseISO_dateToISO]
    | vbin bs =>
      show some (JSValue.vbin (ascii85decode (ascii85encode bs))) = some (JSValue.vbin bs)
      unfold wfValue at h
      simp only [List.all_eq_true, decide_eq_true_eq] at h
      rw [ascii85_roundtrip bs h]
    | vpathref p => rfl
    | vobj fields => exact absurd rfl hc
    | varr items => exact absurd rfl hc

/-- C1 witness: the amended theorem applied to a concrete nested value mixing a
timestamp, a binary, a path-link, null, a string and an array. -/
theorem c1_roundtrip_amended_witness :
    wfValue c1wit = true ∧ deserialize (serialize c1wit) = some c1wit :=
  ⟨rfl, c1_roundtrip_amended c1wit rfl⟩

/-! ### Claim C10: reference path model -/

theorem dropLead_of_ne (l : List Char) (h : l.head? ≠ some '/') : dropLeadSlash l = l := by
  cases l with
  | nil => rfl
  | cons c r =>
    have hc : c ≠ '/' := fun he => h (by rw [he]; rfl)
    simp [dropLeadSlash, hc]

theorem head?_append_of_ne_nil (l₁ l₂ : List Char) (h : l₁ ≠ []) :
    (l₁ ++ l₂).head? = l₁.head? := by
  cases l₁ with
  | nil => exact absurd rfl h
  | cons c r => rfl

theorem getLast?_append_right (l₁ l₂ : List Char) (h : l₂ ≠ []) :
    (l₁ ++ l₂).getLast? = l₂.getLast? := by
  rw [← List.head?_reverse, List.reverse_append, ← List.head?_reverse]
  exact head?_append_of_ne_nil _ _ (by simpa using h)

/-- The trailing trim is the front trim of the reversal: it removes one final
separator when there is one. -/
theorem dropTrail_eq (t : List Char) :
    (dropLeadSlash t.reverse).reverse
      = if t.getLast? = some '/' then t.dropLast else t := by
  rcases hr : t.reverse with _ | ⟨c, r⟩
  · have ht : t = [] := List.reverse_eq_nil_iff.mp hr
    subst ht
    rfl
  · have hg : t.getLast? = some c := by rw [← List.head?_reverse, hr]; rfl
    have htr : t = r.reverse ++ [c] := by
      have := congrArg List.reverse hr
      simpa using this
    by_cases hc : c = '/'
    · subst hc
      rw [if_pos hg]
      have hdl : dropLeadSlash ('/' :: r) = r := by simp [dropLeadSlash]
      rw [hdl, htr, List.dropLast_concat]
    · rw [if_neg (by rw [hg]; simp [hc])]
      have hdl : dropLeadSlash (c :: r) = c :: r := by simp [dropLeadSlash, hc]
      rw [hdl, ← hr, List.reverse_reverse]

theorem trimChars_eq (l : List Char) :
    trimChars l
      = (if (dropLeadSlash l).getLast? = some '/'
         then (dropLeadSlash l).dropLast else dropLeadSlash l) := by
  unfold trimChars
  exact dropTrail_eq (dropLeadSlash l)

theorem trimChars_id (l : List Char) (h1 : l.head? ≠ some '/') (h2 : l.getLast? ≠ some '/') :
    trimChars l = l := by
  rw [trimChars_eq, dropLead_of_ne l h1, if_neg h2]

theorem mkRef_path (s : String) : (mkRef s).path = trimSlashes s := rfl

/-- Canonicity of the constructor trim whenever the input has at most one leading
and at most one trailing separator. -/
theorem trimChars_noBoundary (l : List Char)
    (h1 : l.take 2 ≠ ['/', '/']) (h2 : l.reverse.take 2 ≠ ['/', '/']) :
    (trimChars l).head? ≠ some '/' ∧ (trimChars l).getLast? ≠ some '/' := by
  rcases l with _ | ⟨c, rest⟩
  · simp [trimChars, dropLeadSlash]
  · rcases List.eq_nil_or_concat rest with hrest | ⟨mid, d, hrest⟩
    · -- singleton
      subst hrest
      by_cases hc : c = '/'
      · subst hc
        simp [trimChars, dropLeadSlash]
      · rw [trimChars_id [c] (by simpa using hc) (by simpa using hc)]
        simpa using And.intro hc hc
    · rw [List.concat_eq_append] at hrest
      subst hrest
      have hrev : (c :: (mid ++ [d])).reverse = d :: (mid.reverse ++ [c]) := by simp
      have hglast : (c :: (mid ++ [d])).getLast? = some d := by
        rw [← List.head?_reverse, hrev]; rfl
      by_cases hc : c = '/'
      · subst hc
        have ht : dropLeadSlash ('/' :: (mid ++ [d])) = mid ++ [d] := by
          simp [dropLeadSlash]
        rw [trimChars_eq, ht, List.getLast?_concat]
        by_cases hd : d = '/'
        · subst hd
          rw [if_pos rfl, List.dropLast_concat]
          -- mid itself; the excluded double boundaries give its ends
          have hmidne : mid ≠ [] := by
            intro hm
            subst hm
            exact h1 rfl
          have hhead : mid.head? ≠ some '/' := by
            intro hh
            apply h1
            rcases mid with _ | ⟨m0, mrest⟩
            · exact absurd rfl hmidne
            · simp at hh
              simp [hh]
          have hlast : mid.getLast? ≠ some '/' := by
            intro hh
            apply h2
            rw [hrev]
            rcases List.eq_nil_or_concat mid with hm | ⟨mid', mlast, hm⟩
            · exact absurd hm hmidne
            · rw [List.concat_eq_append] at hm
              subst hm
              rw [List.getLast?_concat] at hh
              simp at hh
              simp [hh]
          refine ⟨?_, hlast⟩
          intro hh
          exact hhead hh
        · rw [if_neg (by simpa using hd)]
          constructor
          · -- head of mid ++ [d]
            intro hh
            apply h1
            rcases mid with _ | ⟨m0, mrest⟩
            · simp at hh
              simp [hh]
            · simp at hh
              simp [hh]
          · rw [List.getLast?_concat]
            simpa using hd
      · have ht : dropLeadSlash (c :: (mid ++ [d])) = c :: (mid ++ [d]) := by
          simp [dropLeadSlash, hc]
        rw [trimChars_eq, ht, hglast]
        by_cases hd : d = '/'
        · subst hd
          rw [if_pos rfl]
          have hdl : (c :: (mid ++ ['/'])).dropLast = c :: mid := by
            rw [List.dropLast_cons_of_ne_nil (by simp), List.dropLast_concat]
          rw [hdl]
          constructor
          · simpa using hc
          · intro hh
            apply h2
            rw [hrev]
            rcases List.eq_nil_or_concat mid with hm | ⟨mid', mlast, hm⟩
            · subst hm
              simp at hh
              simp [hh]
            · rw [List.concat_eq_append] at hm
              subst hm
              rw [show (c :: (mid' ++ [mlast])).getLast? = some mlast from by
                rw [← List.head?_reverse]; simp] at hh
              simp at hh
              subst hh
              simp
        · rw [if_neg (by simpa using hd)]
          refine ⟨by simpa using hc, ?_⟩
          rw [hglast]
          simpa using hd

theorem takeWhile_all_append (p : Char → Bool) (x : List Char) (c0 : Char) (y : List Char)
    (hx : ∀ c ∈ x, p c = true) (hc : p c0 = false) :
    (x ++ c0 :: y).takeWhile p = x := by
  induction x with
  | nil => simp [List.takeWhile_cons, hc]
  | cons a r ih =>
    simp [List.takeWhile_cons, hx a (by simp), ih (fun c h => hx c (by simp [h]))]

theorem takeWhile_all (p : Char → Bool) (x : List Char) (hx : ∀ c ∈ x, p c = true) :
    x.takeWhile p = x := by
  induction x with
  | nil => rfl
  | cons a r ih =>
    simp [List.takeWhile_cons, hx a (by simp), ih (fun c h => hx c (by simp [h]))]

theorem ref_key_of_split (r : DataReference) (a b : List Char)
    (hdata : r.path.data = a ++ '/' :: b) (hb : '/' ∉ b) : r.key = String.mk b := by
  unfold DataReference.key
  have hne : ¬ r.path = "" := by
    rw [string_eq_empty_iff, hdata]
    simp
  rw [if_neg hne, hdata]
  have hrev : (a ++ '/' :: b).reverse = b.reverse ++ '/' :: a.reverse := by simp
  rw [hrev, takeWhile_all_append _ b.reverse '/' a.reverse
    (fun c hcm => by
      simp only [decide_eq_true_eq]
      intro he
      subst he
      exact hb (by simpa using hcm))
    (by simp), List.reverse_reverse]

theorem ref_key_no_slash (r : DataReference) (h : '/' ∉ r.path.data) : r.key = r.path := by
  unfold DataReference.key
  by_cases hroot : r.path = ""
  · rw [if_pos hroot, hroot]
  · rw [if_neg hroot, takeWhile_all _ r.path.data.reverse
      (fun c hcm => by
        simp only [decide_eq_true_eq]
        intro he
        subst he
        exact h (by simpa using hcm)), List.reverse_reverse, mk_data]

theorem ref_parent_none_iff (r : DataReference) : r.parent = none ↔ r.path = "" := by
  unfold DataReference.parent pathInfoParent
  by_cases h : r.path = ""
  · simp [h]
  · rcases hd : r.path.data.reverse.dropWhile (fun c => !(c == '/' || c == '[')) with _ | ⟨c, rest⟩ <;>
      simp [h, hd]

theorem ref_child_path (r : DataReference) (c : String)
    (hp : r.path ≠ "") (hpb : noBoundarySlash r.path)
    (hcne : trimSlashes c ≠ "") (hcb : noBoundarySlash (trimSlashes c)) :
    (r.child c).path = r.path ++ "/" ++ trimSlashes c := by
  have hpd : r.path.data ≠ [] := fun he => hp (string_eq_empty_iff r.path |>.mpr he)
  have hcd : (trimSlashes c).data ≠ [] := fun he => hcne (string_eq_empty_iff _ |>.mpr he)
  have hX : (r.path ++ "/" ++ trimSlashes c).data
      = r.path.data ++ '/' :: (trimSlashes c).data := by
    rw [data_append, data_append]
    simp [show ("/" : String).data = ['/'] from rfl]
  show String.mk (trimChars ((r.path ++ "/" ++ trimSlashes c)).data) = _
  rw [hX, trimChars_id _
    (by
      rw [head?_append_of_ne_nil _ _ hpd]
      exact hpb.1)
    (by
      rw [show r.path.data ++ '/' :: (trimSlashes c).data
          = (r.path.data ++ ['/']) ++ (trimSlashes c).data from by simp,
        getLast?_append_right _ _ hcd]
      exact hcb.2), ← hX, mk_data]

theorem ref_child_path_root (r : DataReference) (c : String)
    (hp : r.path = "") (hcb : noBoundarySlash (trimSlashes c)) :
    (r.child c).path = trimSlashes c := by
  have hX : (r.path ++ "/" ++ trimSlashes c).data = '/' :: (trimSlashes c).data := by
    rw [data_append, data_append, hp]
    simp [show ("/" : String).data = ['/'] from rfl, show ("" : String).data = [] from rfl]
  show String.mk (trimChars ((r.path ++ "/" ++ trimSlashes c)).data) = _
  rw [hX]
  unfold trimChars
  rw [show dropLeadSlash ('/' :: (trimSlashes c).data) = (trimSlashes c).data from by
    simp [dropLeadSlash]]
  rw [dropTrail_eq, if_neg hcb.2, mk_data]

/-- C10, counterexample to the claim as stated: constructing a reference from a
path with two leading and two trailing separators strips only one of each, so the
canonical-form guarantee fails. -/
theorem c10_claim_counterexample :
    (mkRef "//a//").path = "/a/" ∧ ¬ noBoundarySlash (mkRef "//a//").path := by
  constructor
  · rfl
  · intro hb
    exact hb.1 rfl

/-- C10, amended: the constructor strips exactly one leading and one trailing
separator, so the path is canonical whenever the input has at most one of each
(which the counterexample input violates); an absent or empty path gives the root
with the empty key; the key is the last separator-delimited segment of the path;
the parent is null exactly at the root; child joins the canonicalized paths with
one separator (collapsed at the root).  Path and key are pure functions of the
construction input in this embedding, so they cannot change after construction. -/
theorem c10_reference_path_model_amended :
    ∀ (s : String) (r : DataReference) (c : String) (a b : List Char),
    (¬ hasDoubleLead s → ¬ hasDoubleTrail s → noBoundarySlash (mkRef s).path)
    ∧ ((mkRef "").path = "" ∧ (mkRef "").key = "")
    ∧ (r.path.data = a ++ '/' :: b → '/' ∉ b → r.key = String.mk b)
    ∧ ('/' ∉ r.path.data → r.key = r.path)
    ∧ (r.parent = none ↔ r.path = "")
    ∧ (r.path ≠ "" → noBoundarySlash r.path → trimSlashes c ≠ "" →
        noBoundarySlash (trimSlashes c) →
        (r.child c).path = r.path ++ "/" ++ trimSlashes c)
    ∧ (r.path = "" → noBoundarySlash (trimSlashes c) → (r.child c).path = trimSlashes c) := by
  intro s r c a b
  refine ⟨?_, ⟨rfl, rfl⟩, ?_, ?_, ref_parent_none_iff r, ?_, ?_⟩
  · intro h1 h2
    exact trimChars_noBoundary s.data h1 h2
  · exact ref_key_of_split r a b
  · exact ref_key_no_slash r
  · exact ref_child_path r c
  · exact ref_child_path_root r c

/-- C10 witness: the amended theorem applied to concrete inputs — a single-boundary
path is canonicalized, the key of users/john is john, a slashless path is its own
key, the root has no parent while a non-root has one, and concrete child joins. -/
theorem c10_reference_path_model_amended_witness :
    noBoundarySlash (mkRef "/users/john/").path
    ∧ (mkRef "users/john").key = "john"
    ∧ (mkRef "abc").key = "abc"
    ∧ ((mkRef "").parent = none ∧ (mkRef "a/b").parent ≠ none)
    ∧ ((mkRef "users/john").child "posts").path = "users/john" ++ "/" ++ "posts"
    ∧ ((mkRef "").child "/top/").path = "top" := by
  have h1 := (c10_reference_path_model_amended "/users/john/" (mkRef "/users/john/") "" [] []).1
  have h2 := (c10_reference_path_model_amended "" (mkRef "users/john") ""
    ['u', 's', 'e', 'r', 's'] ['j', 'o', 'h', 'n']).2.2.1
  have h3 := (c10_reference_path_model_amended "" (mkRef "abc") "" [] []).2.2.2.1
  have h4 := (c10_reference_path_model_amended "" (mkRef "") "" [] []).2.2.2.2.1
  have h4b := (c10_reference_path_model_amended "" (mkRef "a/b") "" [] []).2.2.2.2.1
  have h5 := (c10_reference_path_model_amended "" (mkRef "users/john") "posts" [] []).2.2.2.2.2.1
  have h6 := (c10_reference_path_model_amended "" (mkRef "") "/top/" [] []).2.2.2.2.2.2
  refine ⟨?_, ?_, ?_, ⟨?_, ?_⟩, ?_, ?_⟩
  · exact h1 (by unfold hasDoubleLead; decide) (by unfold hasDoubleTrail; decide)
  · have hk := h2 (by decide) (by decide)
    rw [hk]
  · exact h3 (by decide)
  · exact h4.mpr rfl
  · intro hn
    have := h4b.mp hn
    exact absurd this (by decide)
  · have hc := h5 (by decide) (by unfold noBoundarySlash; decide) (by decide)
      (by unfold noBoundarySlash; decide)
    rw [hc]
    decide
  · have hc := h6 rfl (by unfold noBoundarySlash; decide)
    rw [hc]
    decide

/-! ### Claim C2: set / remove validation -/

/-- C2: on every non-root reference, set of the undefined sentinel throws the
validation error synchronously — the outcome is the thrown error, carrying no
backend operation; on the root reference, set of any argument whatsoever and
remove both throw synchronously, again with no backend set issued (a thrown
outcome and a backend set are distinct constructors of SetOutcome). -/
theorem c2_set_validation :
    ∀ (r : DataReference) (v : JSInput),
    (r.parent ≠ none →
        r.setModel .undef = .errorThrown "Cannot store value undefined")
    ∧ (r.path = "" →
        r.setModel v
          = .errorThrown "Cannot set the root object. Use update, or set individual child properties"
        ∧ r.removeModel = .errorThrown "Cannot remove the top node") := by
  intro r v
  constructor
  · intro hp
    unfold DataReference.setModel
    rw [if_neg hp]
  · intro hroot
    have hp : r.parent = none := (ref_parent_none_iff r).mpr hroot
    constructor
    · unfold DataReference.setModel
      rw [if_pos hp]
    · unfold DataReference.removeModel
      rw [if_pos hp]

/-- C2 witness: the theorem applied to the concrete non-root reference users/john
and to the root. -/
theorem c2_set_validation_witness :
    (mkRef "users/john").setModel .undef = .errorThrown "Cannot store value undefined"
    ∧ (mkRef "").setModel (.val (.vnum 1))
        = .errorThrown "Cannot set the root object. Use update, or set individual child properties"
    ∧ (mkRef "").removeModel = .errorThrown "Cannot remove the top node" := by
  have h1 := (c2_set_validation (mkRef "users/john") (.val (.vnum 1))).1
  have h2 := (c2_set_validation (mkRef "") (.val (.vnum 1))).2
  exact ⟨h1 (by decide), (h2 rfl).1, (h2 rfl).2⟩

/-! ### Claim C3: update dispatch -/

/-- C3, counterexample to the claim as stated: in JS, typeof null is the string
object, so update(null) passes the plain-object test and issues the backend update
operation, whereas the claim requires it to behave exactly as set (which would
issue a backend set). -/
theorem c3_claim_counterexample :
    (mkRef "a").updateModel (.val .vnull) ≠ liftSet ((mkRef "a").setModel (.val .vnull)) := by
  intro h
  rw [show (mkRef "a").updateModel (.val .vnull) = .backendUpdate "a" .vnull from rfl,
      show liftSet ((mkRef "a").setModel (.val .vnull)) = .backendSet "a" .vnull from rfl] at h
  exact UpdateOutcome.noConfusion h

/-- C3, amended: update behaves exactly as set for every argument that is an array,
a binary, a Date, undefined, or a non-null scalar; for null, for plain objects and
for path-link objects (everything whose typeof is object and which is not an Array,
ArrayBuffer or Date) it serializes the argument and issues the backend update
operation, resolving with this same reference (the returned outcome carries this
reference's path). -/
theorem c3_update_dispatch_amended :
    ∀ r : DataReference,
    (∀ n : Int, r.updateModel (.val (.vnum n)) = liftSet (r.setModel (.val (.vnum n))))
    ∧ (∀ b : Bool, r.updateModel (.val (.vbool b)) = liftSet (r.setModel (.val (.vbool b))))
    ∧ (∀ s : String, r.updateModel (.val (.vstr s)) = liftSet (r.setModel (.val (.vstr s))))
    ∧ (∀ ms : Int, r.updateModel (.val (.vdate ms)) = liftSet (r.setModel (.val (.vdate ms))))
    ∧ (∀ bs : List Nat, r.updateModel (.val (.vbin bs)) = liftSet (r.setModel (.val (.vbin bs))))
    ∧ (∀ items : List JSValue,
        r.updateModel (.val (.varr items)) = liftSet (r.setModel (.val (.varr items))))
    ∧ (r.updateModel .undef = liftSet (r.setModel .undef))
    ∧ (r.updateModel (.val .vnull) = .backendUpdate r.path (typesSerialize r.path .vnull))
    ∧ (∀ fields : List (String × JSValue),
        r.updateModel (.val (.vobj fields))
          = .backendUpdate r.path (typesSerialize r.path (.vobj fields)))
    ∧ (∀ p : String,
        r.updateModel (.val (.vpathref p))
          = .backendUpdate r.path (typesSerialize r.path (.vpathref p))) := by
  intro r
  exact ⟨fun n => rfl, fun b => rfl, fun s => rfl, fun ms => rfl, fun bs => rfl,
    fun items => rfl, rfl, rfl, fun fields => rfl, fun p => rfl⟩

/-! ### Claim C4: query builder validation -/

/-- C4: where validates eagerly and synchronously, for every builder state, key and
compare argument: the in and not-in operators succeed exactly on a non-empty Array,
between and not-between exactly on a two-element Array, matches and not-matches
exactly on a RegExp (in particular any plain string throws), custom exactly on a
function; a successful call appends the filter to the builder state and returns the
builder; a failing call throws a string synchronously — where never touches the
backend capability (its embedding takes and returns only builder state). -/
theorem c4_where_validation :
    ∀ (q : QueryParams) (key : String) (compare : QCompare),
    ((∃ l, compare = .arr l ∧ l ≠ []) →
        DataReferenceQuery.where' q key "in" compare
          = .ok { q with filters := q.filters ++ [(key, "in", compare)] }
        ∧ DataReferenceQuery.where' q key "!in" compare
          = .ok { q with filters := q.filters ++ [(key, "!in", compare)] })
    ∧ (¬(∃ l, compare = .arr l ∧ l ≠ []) →
        (∃ m, DataReferenceQuery.where' q key "in" compare = .error m)
        ∧ (∃ m, DataReferenceQuery.where' q key "!in" compare = .error m))
    ∧ ((∃ a b, compare = .arr [a, b]) →
        DataReferenceQuery.where' q key "between" compare
          = .ok { q with filters := q.filters ++ [(key, "between", compare)] }
        ∧ DataReferenceQuery.where' q key "!between" compare
          = .ok { q with filters := q.filters ++ [(key, "!between", compare)] })
    ∧ (¬(∃ a b, compare = .arr [a, b]) →
        (∃ m, DataReferenceQuery.where' q key "between" compare = .error m)
        ∧ (∃ m, DataReferenceQuery.where' q key "!between" compare = .error m))
    ∧ ((∃ s, compare = .regexp s) →
        DataReferenceQuery.where' q key "matches" compare
          = .ok { q with filters := q.filters ++ [(key, "matches", compare)] }
        ∧ DataReferenceQuery.where' q key "!matches" compare
          = .ok { q with filters := q.filters ++ [(key, "!matches", compare)] })
    ∧ (¬(∃ s, compare = .regexp s) →
        (∃ m, DataReferenceQuery.where' q key "matches" compare = .error m)
        ∧ (∃ m, DataReferenceQuery.where' q key "!matches" compare = .error m))
    ∧ (compare = .func →
        DataReferenceQuery.where' q key "custom" compare
          = .ok { q with filters := q.filters ++ [(key, "custom", compare)] })
    ∧ (compare ≠ .func →
        ∃ m, DataReferenceQuery.where' q key "custom" compare = .error m) := by
  intro q key compare
  refine ⟨?_, ?_, ?_, ?_, ?_, ?_, ?_, ?_⟩
  · rintro ⟨l, rfl, hne⟩
    rcases l with _ | ⟨x, xs⟩
    · exact absurd rfl hne
    · exact ⟨rfl, rfl⟩
  · intro hno
    cases compare with
    | arr l =>
      rcases l with _ | ⟨x, xs⟩
      · exact ⟨⟨_, rfl⟩, ⟨_, rfl⟩⟩
      · exact absurd ⟨x :: xs, rfl, by simp⟩ hno
    | regexp s => exact ⟨⟨_, rfl⟩, ⟨_, rfl⟩⟩
    | func => exact ⟨⟨_, rfl⟩, ⟨_, rfl⟩⟩
    | value v => exact ⟨⟨_, rfl⟩, ⟨_, rfl⟩⟩
  · rintro ⟨a, b, rfl⟩
    exact ⟨rfl, rfl⟩
  · intro hno
    cases compare with
    | arr l =>
      rcases l with _ | ⟨x, xs⟩
      · exact ⟨⟨_, rfl⟩, ⟨_, rfl⟩⟩
      · rcases xs with _ | ⟨y, ys⟩
        · exact ⟨⟨_, rfl⟩, ⟨_, rfl⟩⟩
        · rcases ys with _ | ⟨z, zs⟩
          · exact absurd ⟨x, y, rfl⟩ hno
          · exact ⟨⟨_, rfl⟩, ⟨_, rfl⟩⟩
    | regexp s => exact ⟨⟨_, rfl⟩, ⟨_, rfl⟩⟩
    | func => exact ⟨⟨_, rfl⟩, ⟨_, rfl⟩⟩
    | value v => exact ⟨⟨_, rfl⟩, ⟨_, rfl⟩⟩
  · rintro ⟨s, rfl⟩
    exact ⟨rfl, rfl⟩
  · intro hno
    cases compare with
    | arr l => exact ⟨⟨_, rfl⟩, ⟨_, rfl⟩⟩
    | regexp s => exact absurd ⟨s, rfl⟩ hno
    | func => exact ⟨⟨_, rfl⟩, ⟨_, rfl⟩⟩
    | value v => exact ⟨⟨_, rfl⟩, ⟨_, rfl⟩⟩
  · rintro rfl
    rfl
  · intro hno
    cases compare with
    | arr l => exact ⟨_, rfl⟩
    | regexp s => exact ⟨_, rfl⟩
    | func => exact absurd rfl hno
    | value v => exact ⟨_, rfl⟩

/-- C4 witness: the theorem applied to the concrete calls of the claim — an empty
in-array, a one-element between-array and the plain string a for matches all throw,
while a valid in-array and a function for custom append their filter. -/
theorem c4_where_validation_witness :
    (∃ m, DataReferenceQuery.where' emptyQuery "x" "in" (.arr []) = .error m)
    ∧ (∃ m, DataReferenceQuery.where' emptyQuery "x" "between" (.arr [.vnum 1]) = .error m)
    ∧ (∃ m, DataReferenceQuery.where' emptyQuery "x" "matches" (.value (.vstr "a")) = .error m)
    ∧ DataReferenceQuery.where' emptyQuery "x" "in" (.arr [.vnum 1])
        = .ok { emptyQuery with filters := [("x", "in", .arr [.vnum 1])] }
    ∧ DataReferenceQuery.where' emptyQuery "x" "custom" .func
        = .ok { emptyQuery with filters := [("x", "custom", .func)] } := by
  refine ⟨?_, ?_, ?_, ?_, ?_⟩
  · exact ((c4_where_validation emptyQuery "x" (.arr [])).2.1 (by
      rintro ⟨l, he, hne⟩
      simp at he
      exact hne he)).1
  · exact ((c4_where_validation emptyQuery "x" (.arr [.vnum 1])).2.2.2.1 (by
      rintro ⟨a, b, he⟩
      simp at he)).1
  · exact ((c4_where_validation emptyQuery "x" (.value (.vstr "a"))).2.2.2.2.2.1 (by
      rintro ⟨s, he⟩
      exact QCompare.noConfusion he)).1
  · exact ((c4_where_validation emptyQuery "x" (.arr [.vnum 1])).1 ⟨[.vnum 1], rfl, by simp⟩).1
  · exact (c4_where_validation emptyQuery "x" .func).2.2.2.2.2.2.1 rfl

/-! ### Claim C5: value subscription ordering and immediate replay -/

/-- C5: registering a value subscription with a callback pushes the registration
and issues the backend subscribe strictly before the immediate-replay read (the
action list is in program order: subscribe, then the get of once("value")); the
replay continuation then delivers exactly one snapshot — published to the stream
and passed to the callback — holding the deserialized current value, and in
particular exactly the value when the node holds a two-key object with a holding 1
and b holding 2.  Live events reach the subscription only through the registered
handler, so the single replay delivery is the one immediate snapshot. -/
theorem c5_value_subscribe_before_replay :
    ∀ (r : DataReference) (cb : JsRef) (oursId streamId : Nat) (st : SubsState)
      (current : JSValue),
    (r.onModel "value" (some cb) oursId streamId st).2
        = [.subscribe r.path "value" oursId, .apiGet r.path]
    ∧ (r.onModel "value" (some cb) oursId streamId st).1.callbacks
        = st.callbacks ++ [⟨some cb, oursId, streamId⟩]
    ∧ valueReplay r true current = [⟨true, true, r.path, typesDeserialize r.path current⟩]
    ∧ valueReplay (mkRef "p") true (.vobj [("a", .vnum 1), ("b", .vnum 2)])
        = [⟨true, true, "p", .vobj [("a", .vnum 1), ("b", .vnum 2)]⟩] := by
  intro r cb oursId streamId st current
  exact ⟨rfl, rfl, rfl, rfl⟩

/-! ### Claim C6: child_added replay and the null TypeError -/

/-- C6 (code bug): the child_added replay on a parent holding children k1 and k2
performs one read (the get issued after the subscribe) and synthesizes exactly one
snapshot per existing child, at the child reference, delivered to the stream and
the callback; but for a null current value — typeof null is the string object in
JS, so the guard does not filter it — the continuation crashes in Object.keys(null)
with a TypeError (none) instead of the clean no-event completion the claim asserts
for a null or absent value. -/
theorem c6_child_added_replay_null_bug :
    childAddedReplay (mkRef "game") true (.vobj [("k1", .vnum 1), ("k2", .vnum 2)])
        = some [⟨true, true, "game/k1", .vnum 1⟩, ⟨true, true, "game/k2", .vnum 2⟩]
    ∧ ((mkRef "game").onModel "child_added" (some (.fn 1)) 2 3 ⟨[]⟩).2
        = [.subscribe "game" "child_added" 2, .apiGet "game"]
    ∧ childAddedReplay (mkRef "game") true (.vnum 3) = some []
    ∧ childAddedReplay (mkRef "game") true .vnull = none :=
  ⟨rfl, rfl, rfl, rfl⟩

/-! ### Claim C7: once never removes its registration -/

/-- C7 (code bug): once for a non-value event registers a one-shot callback via on;
on the first occurrence the once callback invokes off passing the received snapshot
object instead of the registered callback function, so off's search by strict
original-callback identity fails, only the not-found error is logged, and off
returns before any stream stop or backend unsubscribe: the registration survives
unchanged in the callbacks list and no unsubscribe action is ever issued.  (The
value arm of once delegates to get and is unaffected.) -/
theorem c7_once_off_mismatch :
    ∀ (r : DataReference) (event : String) (cbId oursId streamId snapId : Nat),
    (r.onModel event (some (.fn cbId)) oursId streamId ⟨[]⟩).1.callbacks
        = [⟨some (.fn cbId), oursId, streamId⟩]
    ∧ r.offModel event (some (.snapObj snapId))
        (r.onModel event (some (.fn cbId)) oursId streamId ⟨[]⟩).1
      = ((r.onModel event (some (.fn cbId)) oursId streamId ⟨[]⟩).1, [],
         ["Cannot find specified callback to unsubscribe from"]) := by
  intro r event cbId oursId streamId snapId
  exact ⟨rfl, rfl⟩

/-! ### Claim C8: error deliveries are dropped, subscription stays alive -/

/-- C8: for every active subscription state, when the internal handler is invoked
with an error instead of data it only logs the error and returns: no snapshot is
delivered, the callbacks list is untouched and no backend call (in particular no
unsubscribe) is issued; and a later good delivery through the same handler still
reaches both the callback and the stream, again leaving the registration and the
backend subscription unchanged. -/
theorem c8_error_delivery_dropped :
    ∀ (r : DataReference) (event : String) (cb : SubCallback) (useCallback streamKeep : Bool)
      (e path : String) (newValue oldValue : JSValue) (st : SubsState),
    oursHandler r event cb useCallback streamKeep (some e) path newValue oldValue st
        = (st, [], [], ["Error getting data for event " ++ event ++ " on path " ++ path])
    ∧ oursHandler r event cb true streamKeep none path newValue oldValue st
        = (st, [], [⟨true, true, path,
            typesDeserialize path (if event = "child_removed" then oldValue else newValue)⟩],
           []) := by
  intro r event cb useCallback streamKeep e path newValue oldValue st
  refine ⟨rfl, ?_⟩
  cases streamKeep <;> rfl

/-! ### Claim C9: serialize leaves the caller's heap cells untouched -/

theorem take_lset {α : Type} (l : List α) : ∀ (a n : Nat) (x : α), n ≤ a →
    (lset l a x).take n = l.take n := by
  induction l with
  | nil => intro a n x _; rfl
  | cons y rest ih =>
    intro a n x hn
    cases a with
    | zero =>
      have : n = 0 := by omega
      subst this
      rfl
    | succ a' =>
      cases n with
      | zero => rfl
      | succ n' =>
        simp only [lset, List.take_succ_cons]
        rw [ih a' n' x (by omega)]

theorem lget_append_of_lt {α : Type} (l₁ l₂ : List α) : ∀ i : Nat, i < l₁.length →
    lget (l₁ ++ l₂) i = lget l₁ i := by
  induction l₁ with
  | nil => intro i hi; simp at hi
  | cons y rest ih =>
    intro i hi
    cases i with
    | zero => rfl
    | succ i' =>
      simp only [List.cons_append, lget]
      exact ih i' (by simpa using hi)

theorem take_append_of_le {α : Type} (l₁ l₂ : List α) : ∀ n : Nat, n ≤ l₁.length →
    (l₁ ++ l₂).take n = l₁.take n := by
  induction l₁ with
  | nil =>
    intro n hn
    have : n = 0 := by simpa using hn
    subst this
    rfl
  | cons y rest ih =>
    intro n hn
    cases n with
    | zero => rfl
    | succ n' =>
      simp only [List.cons_append, List.take_succ_cons]
      rw [ih n' (by simpa using hn)]

theorem take_chain {α : Type} (l₁ l₂ : List α) (m n : Nat) (hmn : n ≤ m)
    (h : l₁.take m = l₂) : l₁.take n = l₂.take n := by
  rw [← h, List.take_take, Nat.min_eq_left hmn]

theorem lget_lset_ne {α : Type} (l : List α) : ∀ (i j : Nat) (x : α), i ≠ j →
    lget (lset l j x) i = lget l i := by
  induction l with
  | nil => intro i j x _; rfl
  | cons y rest ih =>
    intro i j x hij
    cases j with
    | zero =>
      cases i with
      | zero => exact absurd rfl hij
      | succ i' => rfl
    | succ j' =>
      cases i with
      | zero => rfl
      | succ i' => simpa [lset, lget] using ih i' j' x (by omega)

theorem lget_append_singleton_ge {α : Type} (l : List α) (x : α) : ∀ i : Nat, l.length ≤ i →
    lget (l ++ [x]) i = if i = l.length then some x else none := by
  induction l with
  | nil =>
    intro i _
    cases i with
    | zero => rfl
    | succ i' =>
      show lget [] i' = _
      cases i' <;> rfl
  | cons y rest ih =>
    intro i hi
    cases i with
    | zero => simp at hi
    | succ i' =>
      simp only [List.cons_append, lget, List.append_eq]
      rw [ih i' (by simpa using hi)]
      by_cases hie : i' = rest.length
      · simp [hie]
      · have hcon : ¬ (i' + 1 = (y :: rest).length) := by
          simp only [List.length_cons]
          omega
        rw [if_neg hie, if_neg hcon]

theorem mem_aset {β : Type} (fields : List (String × β)) (key : String) (x : β) :
    ∀ kv ∈ aset fields key x, kv.2 = x ∨ kv ∈ fields := by
  induction fields with
  | nil =>
    intro kv hkv
    simp [aset] at hkv
    simp [hkv]
  | cons p rest ih =>
    obtain ⟨k, v⟩ := p
    intro kv hkv
    by_cases hk : k = key
    · simp only [aset, if_pos hk] at hkv
      rcases List.mem_cons.mp hkv with h | h
      · simp [h]
      · exact Or.inr (by simp [h])
    · simp only [aset, if_neg hk] at hkv
      rcases List.mem_cons.mp hkv with h | h
      · exact Or.inr (by simp [h])
      · rcases ih kv h with h2 | h2
        · exact Or.inl h2
        · exact Or.inr (by simp [h2])

theorem alookup_mem {β : Type} (fields : List (String × β)) (key : String) (v : β)
    (h : alookup fields key = some v) : (key, v) ∈ fields := by
  induction fields with
  | nil => simp [alookup] at h
  | cons p rest ih =>
    obtain ⟨k, v'⟩ := p
    by_cases hk : k = key
    · subst hk
      simp [alookup] at h
      simp [h]
    · simp only [alookup, if_neg hk] at h
      exact List.mem_cons_of_mem _ (ih h)

theorem leafPtrGe_not_ptr (n : Nat) (l : HLeaf) (h : ∀ a, l ≠ .hptr a) : leafPtrGe n l :=
  fun a ha => absurd ha (h a)

theorem regionClosed_trivial (h : Heap) : regionClosed h.length h := by
  intro i hi fields hf
  exact absurd (lget_lt_length h i fields hf) (by omega)

theorem regionClosed_append (n : Nat) (h : Heap) (cell : HFields)
    (hc : regionClosed n h) (hcell : ∀ kv ∈ cell, leafPtrGe n kv.2) :
    regionClosed n (h ++ [cell]) := by
  intro i hi fields hf kv hkv
  by_cases hlt : i < h.length
  · rw [lget_append_of_lt _ _ _ hlt] at hf
    exact hc i hi fields hf kv hkv
  · rw [lget_append_singleton_ge _ _ _ (by omega)] at hf
    by_cases hie : i = h.length
    · rw [if_pos hie] at hf
      cases hf
      exact hcell kv hkv
    · rw [if_neg hie] at hf
      cases hf

theorem regionClosed_setField (n : Nat) (h : Heap) (a : Nat) (k : String) (l : HLeaf)
    (hc : regionClosed n h) (hl : leafPtrGe n l) : regionClosed n (heapSetField h a k l) := by
  unfold heapSetField
  cases hg : lget h a with
  | none => exact hc
  | some fields =>
    intro i hi fields' hf kv hkv
    by_cases hia : i = a
    · subst hia
      rw [lget_lset_self h i _ (lget_lt_length h i fields hg)] at hf
      cases hf
      rcases mem_aset fields k l kv hkv with h2 | h2
      · rw [h2]; exact hl
      · exact hc i hi fields hg kv h2
    · rw [lget_lset_ne h i a _ hia] at hf
      exact hc i hi fields' hf kv hkv

theorem heapSetField_length (h : Heap) (a : Nat) (k : String) (l : HLeaf) :
    (heapSetField h a k l).length = h.length := by
  unfold heapSetField
  cases lget h a with
  | none => rfl
  | some fields => exact lset_length h a _

theorem take_heapSetField (h : Heap) (a : Nat) (k : String) (l : HLeaf) (n : Nat) (hn : n ≤ a) :
    (heapSetField h a k l).take n = h.take n := by
  unfold heapSetField
  cases lget h a with
  | none => rfl
  | some fields => exact take_lset h a n _ hn

theorem cloneFieldsH_frame : ∀ (fuel : Nat) (h : Heap) (fields : HFields)
    (h' : Heap) (fields' : HFields) (n : Nat),
    n ≤ h.length → regionClosed n h →
    cloneFieldsH fuel h fields = some (h', fields') →
    h'.take h.length = h ∧ h.length ≤ h'.length ∧ regionClosed n h'
      ∧ ∀ kv ∈ fields', leafPtrGe n kv.2 := by
  intro fuel
  induction fuel with
  | zero =>
    intro h fields h' fields' n _ _ hcl
    exact absurd hcl (by simp [cloneFieldsH])
  | succ f ih =>
    intro h fields h' fields' n hn hc hcl
    match fields with
    | [] =>
      simp only [cloneFieldsH, Option.some.injEq, Prod.mk.injEq] at hcl
      obtain ⟨rfl, rfl⟩ := hcl
      exact ⟨List.take_length h, le_rfl, hc, by simp⟩
    | (k, l) :: rest =>
      cases l
      case hptr a =>
        simp only [cloneFieldsH] at hcl
        cases hg : lget h a with
        | none => rw [hg] at hcl; simp at hcl
        | some obj =>
          rw [hg] at hcl
          simp only [Option.bind_eq_bind, Option.some_bind] at hcl
          cases hcl1 : cloneFieldsH f h obj with
          | none => rw [hcl1] at hcl; simp at hcl
          | some r₁ =>
            rw [hcl1] at hcl
            simp only [Option.bind_eq_bind, Option.some_bind] at hcl
            obtain ⟨h₁, obj'⟩ := r₁
            cases hcl2 : cloneFieldsH f (h₁ ++ [obj']) rest with
            | none => rw [hcl2] at hcl; simp at hcl
            | some r₂ =>
              obtain ⟨r₂h, r₂f⟩ := r₂
              rw [hcl2] at hcl
              simp only [Option.bind_eq_bind, Option.some_bind, Option.some.injEq, Prod.mk.injEq] at hcl
              obtain ⟨rfl, rfl⟩ := hcl
              obtain ⟨f1take, f1len, f1closed, f1ge⟩ := ih h obj h₁ obj' n hn hc hcl1
              have h₂len : h.length ≤ (h₁ ++ [obj']).length := by
                rw [List.length_append]
                omega
              have h₂closed : regionClosed n (h₁ ++ [obj']) :=
                regionClosed_append n h₁ obj' f1closed f1ge
              obtain ⟨f2take, f2len, f2closed, f2ge⟩ :=
                ih (h₁ ++ [obj']) rest r₂h r₂f n (by omega) h₂closed hcl2
              have htake : r₂h.take h.length = h := by
                have step1 : r₂h.take h.length = ((h₁ ++ [obj']).take h.length) :=
                  take_chain r₂h (h₁ ++ [obj']) (h₁ ++ [obj']).length h.length h₂len f2take
                rw [step1, take_append_of_le h₁ [obj'] h.length f1len, f1take]
              refine ⟨htake, by omega, f2closed, ?_⟩
              intro kv hkv
              rcases List.mem_cons.mp hkv with hkv | hkv
              · subst hkv
                intro addr haddr
                simp only [HLeaf.hptr.injEq] at haddr
                omega
              · exact f2ge kv hkv
      all_goals (
        simp only [cloneFieldsH] at hcl
        cases hcl1 : cloneFieldsH f h rest with
        | none => rw [hcl1] at hcl; simp at hcl
        | some r =>
          obtain ⟨rh, rf⟩ := r
          rw [hcl1] at hcl
          simp only [Option.bind_eq_bind, Option.some_bind, Option.some.injEq, Prod.mk.injEq] at hcl
          obtain ⟨rfl, rfl⟩ := hcl
          obtain ⟨f1take, f1len, f1closed, f1ge⟩ := ih h rest rh rf n hn hc hcl1
          refine ⟨f1take, f1len, f1closed, ?_⟩
          intro kv hkv
          rcases List.mem_cons.mp hkv with hkv | hkv
          · subst hkv
            exact leafPtrGe_not_ptr n _ (fun a ha => HLeaf.noConfusion ha)
          · exact f1ge kv hkv)

theorem cloneAddrH_frame (fuel : Nat) (h : Heap) (a : Nat) (h₁ : Heap) (a₁ : Nat) (n : Nat)
    (hn : n ≤ h.length) (hc : regionClosed n h)
    (hcl : cloneAddrH fuel h a = some (h₁, a₁)) :
    h₁.take h.length = h ∧ h.length ≤ h₁.length ∧ n ≤ a₁ ∧ a₁ < h₁.length
      ∧ regionClosed n h₁ := by
  cases fuel with
  | zero => exact absurd hcl (by simp [cloneAddrH])
  | succ f =>
    simp only [cloneAddrH] at hcl
    cases hg : lget h a with
    | none => rw [hg] at hcl; simp at hcl
    | some obj =>
      rw [hg] at hcl
      simp only [Option.bind_eq_bind, Option.some_bind] at hcl
      cases hcl1 : cloneFieldsH f h obj with
      | none => rw [hcl1] at hcl; simp at hcl
      | some r =>
        obtain ⟨rh, rf⟩ := r
        rw [hcl1] at hcl
        simp only [Option.bind_eq_bind, Option.some_bind, Option.some.injEq, Prod.mk.injEq] at hcl
        obtain ⟨rfl, rfl⟩ := hcl
        obtain ⟨f1take, f1len, f1closed, f1ge⟩ := cloneFieldsH_frame f h obj rh rf n hn hc hcl1
        refine ⟨?_, ?_, by omega, by simp, regionClosed_append n rh rf f1closed f1ge⟩
        · rw [take_append_of_le rh [rf] h.length f1len, f1take]
        · rw [List.length_append]
          omega

theorem processKeysH_frame : ∀ (fuel : Nat) (ks : List String) (h : Heap) (a : Nat)
    (pre : String) (out : Heap × List (String × Tag)) (n : Nat),
    n ≤ a → regionClosed n h →
    processKeysH fuel ks h a pre = some out →
    out.1.take n = h.take n ∧ out.1.length = h.length ∧ regionClosed n out.1 := by
  intro fuel
  induction fuel with
  | zero =>
    intro ks h a pre out n _ _ hp
    exact absurd hp (by simp [processKeysH])
  | succ f ih =>
    intro ks h a pre out n hna hc hp
    match ks with
    | [] =>
      simp only [processKeysH, Option.some.injEq] at hp
      rw [← hp]
      exact ⟨rfl, rfl, hc⟩
    | k :: ks' =>
      simp only [processKeysH] at hp
      cases hg : lget h a with
      | none => rw [hg] at hp; simp at hp
      | some obj =>
        rw [hg] at hp
        simp only [Option.bind_eq_bind, Option.some_bind] at hp
        cases hlk : alookup obj k with
        | none =>
          simp only [hlk] at hp
          exact ih ks' h a pre out n hna hc hp
        | some leaf =>
          cases leaf
          case hdate ms =>
            simp only [hlk] at hp
            cases hrec : processKeysH f ks' (heapSetField h a k (.hstr (dateToISO ms))) a pre with
            | none => rw [hrec] at hp; simp at hp
            | some r =>
              rw [hrec] at hp
              simp only [Option.bind_eq_bind, Option.some_bind, Option.some.injEq] at hp
              obtain rfl := hp
              obtain ⟨ptake, plen, pclosed⟩ := ih ks' _ a pre r n hna
                (regionClosed_setField n h a k _ hc
                  (leafPtrGe_not_ptr n _ (fun x hx => HLeaf.noConfusion hx))) hrec
              refine ⟨?_, ?_, pclosed⟩
              · show List.take n r.1 = List.take n h
                rw [ptake, take_heapSetField h a k _ n hna]
              · show r.1.length = h.length
                rw [plen, heapSetField_length]
          case hbin bs =>
            simp only [hlk] at hp
            cases hrec : processKeysH f ks' (heapSetField h a k (.hstr (ascii85encode bs))) a pre with
            | none => rw [hrec] at hp; simp at hp
            | some r =>
              rw [hrec] at hp
              simp only [Option.bind_eq_bind, Option.some_bind, Option.some.injEq] at hp
              obtain rfl := hp
              obtain ⟨ptake, plen, pclosed⟩ := ih ks' _ a pre r n hna
                (regionClosed_setField n h a k _ hc
                  (leafPtrGe_not_ptr n _ (fun x hx => HLeaf.noConfusion hx))) hrec
              refine ⟨?_, ?_, pclosed⟩
              · show List.take n r.1 = List.take n h
                rw [ptake, take_heapSetField h a k _ n hna]
              · show r.1.length = h.length
                rw [plen, heapSetField_length]
          case hpathref p =>
            simp only [hlk] at hp
            cases hrec : processKeysH f ks' (heapSetField h a k (.hstr p)) a pre with
            | none => rw [hrec] at hp; simp at hp
            | some r =>
              rw [hrec] at hp
              simp only [Option.bind_eq_bind, Option.some_bind, Option.some.injEq] at hp
              obtain rfl := hp
              obtain ⟨ptake, plen, pclosed⟩ := ih ks' _ a pre r n hna
                (regionClosed_setField n h a k _ hc
                  (leafPtrGe_not_ptr n _ (fun x hx => HLeaf.noConfusion hx))) hrec
              refine ⟨?_, ?_, pclosed⟩
              · show List.take n r.1 = List.take n h
                rw [ptake, take_heapSetField h a k _ n hna]
              · show r.1.length = h.length
                rw [plen, heapSetField_length]
          case hptr a' =>
            simp only [hlk] at hp
            have hna' : n ≤ a' :=
              hc a hna obj hg (k, .hptr a') (alookup_mem obj k _ hlk) a' rfl
            cases hg' : lget h a' with
            | none => rw [hg'] at hp; simp at hp
            | some obj' =>
              rw [hg'] at hp
              simp only [Option.bind_eq_bind, Option.some_bind] at hp
              cases hrec1 : processKeysH f (obj'.map Prod.fst) h a' (extendPath pre k) with
              | none => rw [hrec1] at hp; simp at hp
              | some r₁ =>
                rw [hrec1] at hp
                simp only [Option.bind_eq_bind, Option.some_bind] at hp
                cases hrec2 : processKeysH f ks' r₁.1 a pre with
                | none => rw [hrec2] at hp; simp at hp
                | some r₂ =>
                  rw [hrec2] at hp
                  simp only [Option.bind_eq_bind, Option.some_bind, Option.some.injEq] at hp
                  obtain rfl := hp
                  obtain ⟨p1take, p1len, p1closed⟩ :=
                    ih (obj'.map Prod.fst) h a' (extendPath pre k) r₁ n hna' hc hrec1
                  obtain ⟨p2take, p2len, p2closed⟩ :=
                    ih ks' r₁.1 a pre r₂ n hna p1closed hrec2
                  refine ⟨?_, ?_, p2closed⟩
                  · show List.take n r₂.1 = List.take n h
                    rw [p2take, p1take]
                  · show r₂.1.length = h.length
                    rw [p2len, p1len]
          case hnull =>
            simp only [hlk] at hp
            exact ih ks' h a pre out n hna hc hp
          case hbool b =>
            simp only [hlk] at hp
            exact ih ks' h a pre out n hna hc hp
          case hnum m =>
            simp only [hlk] at hp
            exact ih ks' h a pre out n hna hc hp
          case hstr s =>
            simp only [hlk] at hp
            exact ih ks' h a pre out n hna hc hp

theorem processAddrH_frame (fuel : Nat) (h : Heap) (a : Nat) (pre : String)
    (out : Heap × List (String × Tag)) (n : Nat)
    (hna : n ≤ a) (hc : regionClosed n h)
    (hp : processAddrH fuel h a pre = some out) :
    out.1.take n = h.take n ∧ out.1.length = h.length ∧ regionClosed n out.1 := by
  cases fuel with
  | zero => exact absurd hp (by simp [processAddrH])
  | succ f =>
    simp only [processAddrH] at hp
    cases hg : lget h a with
    | none => rw [hg] at hp; simp at hp
    | some obj =>
      rw [hg] at hp
      simp only [Option.bind_eq_bind, Option.some_bind] at hp
      exact processKeysH_frame f (obj.map Prod.fst) h a pre out n hna hc hp

/-- C9: for every heap, root cell and fuel, whenever serialize succeeds, every cell
of the caller's original heap — hence the caller's composite value and every nested
Date, binary and path-link inside it — is bit-for-bit unchanged in the final heap:
serialize deep-clones first and process mutates only cells of the clone, which all
live at fresh addresses (the envelope val is the processed clone, which does carry
the transformed replacements). -/
theorem c9_serialize_frame :
    ∀ (fuel : Nat) (h : Heap) (a : Nat) (out : Heap × Nat × List (String × Tag)),
    serializeHeap fuel h a = some out → out.1.take h.length = h := by
  intro fuel h a out hs
  unfold serializeHeap at hs
  cases hcl : cloneAddrH fuel h a with
  | none => rw [hcl] at hs; simp at hs
  | some c =>
    rw [hcl] at hs
    simp only [Option.bind_eq_bind, Option.some_bind] at hs
    obtain ⟨h₁, a₁⟩ := c
    cases hpr : processAddrH fuel h₁ a₁ "" with
    | none => rw [hpr] at hs; simp at hs
    | some p =>
      rw [hpr] at hs
      simp only [Option.bind_eq_bind, Option.some_bind, Option.some.injEq] at hs
      obtain ⟨ctake, clen, ca₁ge, ca₁lt, cclosed⟩ :=
        cloneAddrH_frame fuel h a h₁ a₁ h.length le_rfl (regionClosed_trivial h) hcl
      obtain ⟨ptake, plen, pclosed⟩ :=
        processAddrH_frame fuel h₁ a₁ "" p h.length ca₁ge cclosed hpr
      rw [← hs]
      show p.1.take h.length = h
      rw [ptake, ctake]

/-- C9 witness: the theorem applied to the concrete two-cell heap c9hW, whose
serialize result is c9resW — the two original cells are intact as the prefix of the
final heap while the clone cells hold the transformed replacements. -/
theorem c9_serialize_frame_witness :
    serializeHeap 10 c9hW 0 = some c9resW ∧ c9resW.1.take c9hW.length = c9hW :=
  ⟨rfl, c9_serialize_frame 10 c9hW 0 c9resW rfl⟩
